import Mathlib

/-!
Verification of the epub reading library (Go package `epub`).

This file gives a shallow embedding, in Lean 4, of the parts of the library
that the verified claims are about: safe archive path handling
(`ziputil.go`), manifest/spine construction (`toc.go`), TOC/spine
reconciliation (`toc.go`), the book façade's chapter construction
(`epub.go`), the cover-detection cascade (`cover.go`), DRM detection
(`drm.go`), size-limited entry reads (`ziputil.go`), title extraction
(`metadata.go`), the HTML-entity preprocessor (`html.go`) and Gutenberg
license detection (`chapter.go`).

Strings are modelled as `List Char` (`Str` below); Go's byte strings carry
only ASCII in every path the claims exercise, so a character list is a
faithful model.  External collaborators (the ZIP reader, the XML decoder and
the HTML tokenizer) are out of scope per the specification; where a library
function wraps one of them, the wrapper is embedded and the collaborator is
a function parameter.
-/

namespace Epub

/-- Strings, modelled as lists of characters. -/
abbrev Str := List Char

/-- `strStarts pre s` is true when `pre` is a prefix of `s`
(Go `strings.HasPrefix`). -/
def strStarts : Str → Str → Bool
  | [], _ => true
  | _ :: _, [] => false
  | a :: as, b :: bs => a = b && strStarts as bs

/-- Go `strings.Contains`: substring containment. -/
def strContains : Str → Str → Bool
  | [], sub => strStarts sub []
  | c :: rest, sub => strStarts sub (c :: rest) || strContains rest sub

/-- ASCII lower-casing of one character (model of `strings.ToLower` /
`unicode.ToLower` restricted to the ASCII inputs the claims exercise). -/
def lowerChar (c : Char) : Char :=
  if 'A' ≤ c ∧ c ≤ 'Z' then Char.ofNat (c.toNat + 32) else c

/-- Go `strings.ToLower` (ASCII fragment). -/
def lowerStr (s : Str) : Str := s.map lowerChar

/-- Whitespace characters trimmed by Go `strings.TrimSpace`
(ASCII fragment of `unicode.IsSpace`). -/
def isSpaceChar (c : Char) : Bool :=
  c = ' ' || c = '\t' || c = '\n' || c = '\r' ||
    c = Char.ofNat 11 || c = Char.ofNat 12

/-- Go `strings.TrimSpace` (ASCII fragment). -/
def trimSpace (s : Str) : Str :=
  ((s.dropWhile isSpaceChar).reverse.dropWhile isSpaceChar).reverse

/-- Split a string into the groups between occurrences of `sep`
(Go `strings.Split` on one separator character). -/
def splitOnSep (sep : Char) : Str → List Str
  | [] => [[]]
  | c :: rest =>
    let groups := splitOnSep sep rest
    if c = sep then [] :: groups
    else
      match groups with
      | [] => [[c]]
      | g :: gs => (c :: g) :: gs

/-- Join path components with `'/'` separators. -/
def joinSep : List Str → Str
  | [] => []
  | [g] => g
  | g :: gs => g ++ '/' :: joinSep gs

/-- One step of the lexical path-cleaning stack machine that implements
Go `path.Clean`: skip empty and `"."` components, let `".."` pop the last
real component (or accumulate at the front when the path is relative, or be
dropped at the root of a rooted path), and push everything else.
The head of `stack` is the most recent component. -/
def cleanStep (rooted : Bool) (stack : List Str) (elem : Str) : List Str :=
  if elem = [] ∨ elem = ['.'] then stack
  else if elem = ['.', '.'] then
    match stack with
    | [] => if rooted then [] else [['.', '.']]
    | top :: rest => if top = ['.', '.'] then elem :: top :: rest else rest
  else elem :: stack

/-- Go `path.Clean`: purely lexical normalization of a slash-separated
path — collapse repeated slashes, drop `.` components, resolve `..`
against preceding components (never past the root of a rooted path), and
return `"."` for an empty result. -/
def clean (p : Str) : Str :=
  if p = [] then ['.']
  else
    let rooted := strStarts ['/'] p
    let comps := ((splitOnSep '/' p).foldl (cleanStep rooted) []).reverse
    if rooted then '/' :: joinSep comps
    else if comps = [] then ['.'] else joinSep comps

/-- Go `path.Dir`: everything before the final slash, cleaned;
`"."` when the path holds no slash. -/
def dirOf (p : Str) : Str :=
  clean (p.reverse.dropWhile (· ≠ '/')).reverse

/-- Go `path.Join` restricted to two elements: empty elements are skipped
and the joined result is cleaned; joining two empties gives the empty
string. -/
def joinPath (a b : Str) : Str :=
  if a = [] then (if b = [] then [] else clean b)
  else clean (a ++ '/' :: b)

/-- Numeric value of one hexadecimal digit. -/
def hexVal (c : Char) : Option Nat :=
  if '0' ≤ c ∧ c ≤ '9' then some (c.toNat - '0'.toNat)
  else if 'a' ≤ c ∧ c ≤ 'f' then some (c.toNat - 'a'.toNat + 10)
  else if 'A' ≤ c ∧ c ≤ 'F' then some (c.toNat - 'A'.toNat + 10)
  else none

/-- Go `url.PathUnescape`: decode `%XY` escapes once; fail when a `%` is
not followed by two hexadecimal digits. -/
def pathUnescape : Str → Option Str
  | [] => some []
  | '%' :: a :: b :: rest =>
    match hexVal a, hexVal b with
    | some ha, some hb => (pathUnescape rest).map (Char.ofNat (ha * 16 + hb) :: ·)
    | _, _ => none
  | '%' :: _ :: [] => none
  | '%' :: [] => none
  | c :: rest => (pathUnescape rest).map (c :: ·)

/-- `isSafePath` from `ziputil.go`: a cleaned ZIP-internal path is safe when
it is not rooted and does not lead with a `..` traversal component. -/
def isSafePath (p : Str) : Bool :=
  let cleaned := clean p
  if strStarts ['/'] cleaned then false
  else if cleaned = ['.', '.'] ∨ strStarts ['.', '.', '/'] cleaned then false
  else true

/-- `resolveRelativePath` from `ziputil.go`: resolve `href` against the
directory of `basePath`, refusing archive-absolute hrefs and results that
escape the archive root (empty string on refusal). -/
def resolveRelativePath (basePath href : Str) : Str :=
  let href := trimSpace href
  if strStarts ['/'] href then []
  else
    let href := match pathUnescape href with
      | some decoded => decoded
      | none => href
    let dir := dirOf basePath
    let joined := joinPath dir href
    let cleaned := clean joined
    if isSafePath cleaned then cleaned else []

/-! ### OPF data model and manifest/spine construction (`opf.go`) -/

/-- A raw `<item>` of the OPF manifest (`opfManifestItem`). -/
structure OpfManifestItem where
  id : Str
  href : Str
  mediaType : Str
  properties : Str
deriving DecidableEq, Repr

/-- The processed manifest item (`manifestItem`). -/
structure ManifestItem where
  id : Str
  href : Str
  mediaType : Str
  properties : Str
deriving DecidableEq, Repr

/-- The `manifestItem` value built from a raw OPF item inside
`buildManifestMaps`. -/
def toManifestItem (it : OpfManifestItem) : ManifestItem :=
  ⟨it.id, it.href, it.mediaType, it.properties⟩

/-- A Go `map[string]V`, modelled as a lookup function. -/
abbrev Lookup (α : Type) := Str → Option α

/-- Go map assignment `m[k] = v`: a later assignment overwrites an
earlier one. -/
def mapUpdate {α} (m : Lookup α) (k : Str) (v : α) : Lookup α :=
  fun x => if x = k then some v else m x

/-- An empty Go map. -/
def emptyMap {α} : Lookup α := fun _ => none

/-- `buildManifestMaps` from `opf.go`: one pass over the manifest items
assigning each into the by-id and by-href maps. -/
def buildManifestMaps (items : List OpfManifestItem) :
    Lookup ManifestItem × Lookup ManifestItem :=
  items.foldl
    (fun maps it =>
      (mapUpdate maps.1 it.id (toManifestItem it),
       mapUpdate maps.2 it.href (toManifestItem it)))
    (emptyMap, emptyMap)

/-- A raw `<itemref>` of the OPF spine (`opfSpineItemRef`). -/
structure OpfSpineItemRef where
  idref : Str
  linear : Str
deriving DecidableEq, Repr

/-- The processed spine item (`spineItem`). -/
structure SpineItem where
  id : Str
  href : Str
  mediaType : Str
  linear : Bool
  idref : Str
deriving DecidableEq, Repr

/-- `buildSpine` from `opf.go`: resolve each itemref against the by-id
manifest map, leaving the resolved fields empty on a miss;
`linear` is true unless the attribute is literally `"no"`. -/
def buildSpine (refs : List OpfSpineItemRef) (byID : Lookup ManifestItem) :
    List SpineItem :=
  refs.map fun ref =>
    let base : SpineItem :=
      ⟨[], [], [], decide ¬(ref.linear = "no".toList), ref.idref⟩
    match byID ref.idref with
    | some mi => { base with id := mi.id, href := mi.href, mediaType := mi.mediaType }
    | none => base

/-! ### Navigation tree and TOC/spine reconciliation (`toc.go`) -/

/-- A navigation entry (`TOCItem` in `types.go`): title, archive href
(may carry a fragment), nested children and the spine coverage range. -/
inductive TOCItem where
  | mk (title : Str) (href : Str) (children : List TOCItem)
      (spineIndex : Int) (spineEndIndex : Int)
deriving Repr

def TOCItem.title : TOCItem → Str
  | .mk t _ _ _ _ => t

def TOCItem.href : TOCItem → Str
  | .mk _ h _ _ _ => h

def TOCItem.children : TOCItem → List TOCItem
  | .mk _ _ c _ _ => c

def TOCItem.spineIndex : TOCItem → Int
  | .mk _ _ _ s _ => s

def TOCItem.spineEndIndex : TOCItem → Int
  | .mk _ _ _ _ e => e

mutual
/-- Preorder flattening of one navigation entry (`flattenTOCItems`). -/
def flattenItem : TOCItem → List TOCItem
  | .mk t h ch s e => .mk t h ch s e :: flattenItems ch
/-- Preorder flattening of a navigation forest (`flattenTOCItems`). -/
def flattenItems : List TOCItem → List TOCItem
  | [] => []
  | x :: xs => flattenItem x ++ flattenItems xs
end

/-- `hrefWithoutFragment` from `toc.go`: drop everything from the first
`#` on. -/
def hrefWithoutFragment (h : Str) : Str := h.takeWhile (· ≠ '#')

/-- The spine map built at the top of `parseTOC`: resolved spine href →
spine position; a later duplicate href overwrites an earlier one (Go map
assignment in a loop). -/
def buildSpineMap (resolvedHrefs : List Str) : Lookup Nat :=
  resolvedHrefs.enum.foldl (fun m p => mapUpdate m p.2 p.1) emptyMap

/-- The new spine index `assignSpineIndices` gives a node with href `h`
and current index `s`. -/
def assignVal (m : Lookup Nat) (h : Str) (s : Int) : Int :=
  if h ≠ [] then
    match m (hrefWithoutFragment h) with
    | some idx => (idx : Int)
    | none => s
  else s

mutual
/-- `assignSpineIndices` on one entry. -/
def assignItem (m : Lookup Nat) : TOCItem → TOCItem
  | .mk t h ch s e => .mk t h (assignItems m ch) (assignVal m h s) e
/-- `assignSpineIndices` on a forest. -/
def assignItems (m : Lookup Nat) : List TOCItem → List TOCItem
  | [] => []
  | x :: xs => assignItem m x :: assignItems m xs
end

/-- The index collection loop of `computeSpineRanges`: distinct spine
indices `≥ 0` in preorder-traversal order. -/
def collectIndices (l : List Int) : List Int :=
  l.foldl (fun acc s => if 0 ≤ s ∧ s ∉ acc then acc ++ [s] else acc) []

/-- Stable insertion into a sorted list: the new element goes after every
element it is not strictly below. -/
def insertSorted {α} (lt : α → α → Bool) (x : α) : List α → List α
  | [] => [x]
  | y :: ys => if lt x y then x :: y :: ys else y :: insertSorted lt x ys

/-- Stable sort by the boolean relation `lt` (model of Go
`sort.Ints` / `sort.SliceStable`). -/
def isort {α} (lt : α → α → Bool) (l : List α) : List α :=
  l.foldl (fun acc x => insertSorted lt x acc) []

/-- The `endMap` lookup of `computeSpineRanges`: each sorted index maps to
its successor in the sorted list, the last one to `spineLen`; a missing
key gives the Go zero value `0`. -/
def endLookup : List Int → Int → Int → Int
  | [], _, _ => 0
  | a :: rest, spineLen, s =>
    if a = s then
      match rest with
      | [] => spineLen
      | b :: _ => b
    else endLookup rest spineLen s

mutual
/-- The application loop of `computeSpineRanges`: set each entry's
`spineEndIndex` from its `spineIndex` (to `-1` on an unmatched entry). -/
def setEndItem (f : Int → Int) : TOCItem → TOCItem
  | .mk t h ch s _ => .mk t h (setEndItems f ch) s (if 0 ≤ s then f s else -1)
/-- `computeSpineRanges` application loop on a forest. -/
def setEndItems (f : Int → Int) : List TOCItem → List TOCItem
  | [] => []
  | x :: xs => setEndItem f x :: setEndItems f xs
end

/-- `computeSpineRanges` from `toc.go`. -/
def computeSpineRanges (items : List TOCItem) (spineLen : Nat) : List TOCItem :=
  match items with
  | [] => []
  | _ :: _ =>
    let indices := collectIndices ((flattenItems items).map TOCItem.spineIndex)
    if indices = [] then items
    else
      let sorted := isort (fun a b : Int => decide (a < b)) indices
      setEndItems (fun s => endLookup sorted (spineLen : Int) s) items

/--
The TOC selection and reconciliation pipeline of `Book.parseTOC`:
build the spine map from the resolved spine hrefs; for version-3 books
with a parsed nav document, assign spine indices to toc and landmarks but
compute coverage ranges only on the toc; otherwise fall back to the NCX
toc (landmarks stay empty); with neither, both trees are empty.  The
outcomes of the external XML/XHTML parses are the `nav` and `ncx`
parameters. -/
def parseTOCPipeline (isEpub3 : Bool)
    (nav : Option (List TOCItem × List TOCItem))
    (ncx : Option (List TOCItem))
    (spineHrefs : List Str) : List TOCItem × List TOCItem :=
  let m := buildSpineMap spineHrefs
  let spineLen := spineHrefs.length
  match isEpub3, nav with
  | true, some (toc, lm) =>
    (computeSpineRanges (assignItems m toc) spineLen, assignItems m lm)
  | _, _ =>
    match ncx with
    | some toc => (computeSpineRanges (assignItems m toc) spineLen, [])
    | none => ([], [])

/-- The href/spine-index/spine-end-index data of a navigation entry, used
to relate trees before and after the nodewise reconciliation passes. -/
def projHSE (x : TOCItem) : Str × Int × Int :=
  (x.href, x.spineIndex, x.spineEndIndex)

/-- A freshly parsed navigation forest: both spine indices are `-1` on
every entry, as `convertNavPoints` and `parseNavLI` construct them. -/
def FreshForest (items : List TOCItem) : Prop :=
  ∀ x ∈ flattenItems items,
    x.spineIndex = -1 ∧ x.spineEndIndex = -1

/-! ### Book façade: chapter construction (`epub.go`) -/

/-- `resolveOPFPath` from `epub.go`: join a manifest href onto the OPF
directory (href unchanged when the OPF sits at the archive root). -/
def resolveOPFPath (opfDir href : Str) : Str :=
  if href = [] then []
  else if opfDir = ['.'] then href
  else joinPath opfDir href

/-- A chapter handle (`Chapter` in `types.go`, content loading elided). -/
structure Chapter where
  title : Str
  href : Str
  id : Str
  linear : Bool
  isLicense : Bool
deriving DecidableEq, Repr

/-- `buildTOCTitleMap` from `epub.go`: flatten the TOC and map each
fragment-stripped href to its first title. -/
def buildTOCTitleMap (items : List TOCItem) : Lookup Str :=
  (flattenItems items).foldl
    (fun m it =>
      if it.href = [] then m
      else
        match m (hrefWithoutFragment it.href) with
        | some _ => m
        | none => mapUpdate m (hrefWithoutFragment it.href) it.title)
    emptyMap

/-- The chapter-list construction of `Book.Chapters`: one chapter per
spine item in spine order, href resolved through `resolveOPFPath`, title
from the TOC title map (empty on a miss). -/
def chaptersOf (opfDir : Str) (spine : List SpineItem) (toc : List TOCItem) :
    List Chapter :=
  let tocTitleMap := buildTOCTitleMap toc
  spine.map fun si =>
    let href := resolveOPFPath opfDir si.href
    { id := si.id, href := href, title := (tocTitleMap href).getD [],
      linear := si.linear, isLicense := false }

/-! ### Safe archive reads (`ziputil.go`) -/

/-- A ZIP entry: name, declared decompressed size and the actual
decompressed stream content. -/
structure ZipEntry where
  name : Str
  declaredSize : Nat
  content : Str
deriving DecidableEq, Repr

/-- The failure kinds of archive reads (the distinct `fmt.Errorf` messages
of `ziputil.go` / the `ErrFileNotFound` sentinel). -/
inductive ReadErr where
  | unsafePath
  | tooLargeDeclared
  | tooLargeActual
  | fileNotFound
deriving DecidableEq, Repr

/-- The default per-entry decompression limit (`maxDecompressSize`,
256 MiB). -/
def maxDecompressSize : Nat := 256 * 1024 * 1024

/-- `readZipFileWithLimit` from `ziputil.go`: refuse unsafe entry names;
refuse a declared size above the limit; read at most `limit + 1` bytes
from the decompression stream (`io.LimitReader`) and refuse when more
than `limit` bytes actually came out; otherwise return the full bytes. -/
def readZipFileWithLimit (f : ZipEntry) (limit : Nat) : Except ReadErr Str :=
  if isSafePath f.name = false then .error .unsafePath
  else if f.declaredSize > limit then .error .tooLargeDeclared
  else
    let data := f.content.take (limit + 1)
    if data.length > limit then .error .tooLargeActual
    else .ok data

/-- `readZipFile`: `readZipFileWithLimit` at the default limit. -/
def readZipFile (f : ZipEntry) : Except ReadErr Str :=
  readZipFileWithLimit f maxDecompressSize

/-- `findFileInsensitive` from `ziputil.go`, on entry names: exact match
first, then the first case-insensitive match. -/
def findNameInsensitive (names : List Str) (target : Str) : Option Str :=
  match names.find? (fun n => n = target) with
  | some n => some n
  | none => names.find? (fun n => lowerStr n = lowerStr target)

/-! ### DRM detection (`drm.go`) -/

/-- The path of the encryption descriptor. -/
def encryptionFilePath : Str := "META-INF/encryption.xml".toList

/-- The Apple FairPlay marker path. -/
def sinfFilePath : Str := "META-INF/sinf.xml".toList

/-- One `<EncryptedData>` block of `encryption.xml`: the algorithm URI and
the inner XML of its `<KeyInfo>`. -/
structure EncryptedData where
  algorithm : Str
  keyInfoInnerXML : Str
deriving DecidableEq, Repr

/-- The font-obfuscation algorithm set (`fontObfuscationAlgorithms`). -/
def fontObfuscationAlgorithms (algo : Str) : Bool :=
  decide (algo = "http://www.idpf.org/2008/embedding".toList ∨
    algo = "http://ns.adobe.com/pdf/enc#RC".toList)

/-- The known DRM signature substrings (`drmSignatures`). -/
def drmSignatures : List Str :=
  ["http://ns.adobe.com/adept".toList, "http://readium.org/2014/01/lcp".toList]

/-- `isDRMSignature` from `drm.go`. -/
def isDRMSignature (s : Str) : Bool :=
  drmSignatures.any (fun sig => strContains s sig)

/-- The outcome of `checkDRM`: success with the font-obfuscation flag, or
the `ErrDRMProtected` sentinel. -/
inductive DRMResult where
  | ok (fontObfuscation : Bool)
  | drmProtected
deriving DecidableEq, Repr

/-- The `EncryptedData` loop of `checkDRM`, carrying the
font-obfuscation flag. -/
def checkDRMLoop (fontObfuscation : Bool) : List EncryptedData → DRMResult
  | [] => .ok fontObfuscation
  | ed :: rest =>
    if fontObfuscationAlgorithms ed.algorithm then checkDRMLoop true rest
    else if isDRMSignature ed.algorithm then .drmProtected
    else if isDRMSignature ed.keyInfoInnerXML then .drmProtected
    else .drmProtected

/-- `checkDRM` from `drm.go` over the archive's entry names:
FairPlay marker first; then the encryption descriptor, whose XML decode
(an external collaborator) is the `parseEnc` parameter — `none` models a
parse failure. -/
def checkDRM (entryNames : List Str) (parseEnc : Option (List EncryptedData)) :
    DRMResult :=
  if (findNameInsensitive entryNames sinfFilePath).isSome then .drmProtected
  else if (findNameInsensitive entryNames encryptionFilePath).isSome then
    match parseEnc with
    | none => .drmProtected
    | some eds => checkDRMLoop false eds
  else .ok false

/-! ### Cover detection (`cover.go`) -/

/-- A raw `<meta>` element of the OPF metadata (`opfMeta`). -/
structure OpfMeta where
  name : Str
  content : Str
  property : Str
  refines : Str
  scheme : Str
  value : Str
deriving DecidableEq, Repr

/-- A processed guide reference (`guideReference`). -/
structure GuideReference where
  type : Str
  title : Str
  href : Str
deriving DecidableEq, Repr

/-- Go `strings.Fields`: split around runs of whitespace. -/
def fieldsGo : Str → Str → List Str
  | cur, [] => if cur = [] then [] else [cur.reverse]
  | cur, c :: rest =>
    if isSpaceChar c then
      if cur = [] then fieldsGo [] rest else cur.reverse :: fieldsGo [] rest
    else fieldsGo (c :: cur) rest

/-- Go `strings.Fields`. -/
def fields (s : Str) : List Str := fieldsGo [] s

/-- `isImageMediaType` from `cover.go`. -/
def isImageMediaType (mt : Str) : Bool :=
  strStarts "image/".toList (lowerStr (trimSpace mt))

/-- `containsFold` from `cover.go`. -/
def containsFold (s sub : Str) : Bool :=
  strContains (lowerStr s) (lowerStr sub)

/-- Go `strings.EqualFold` (ASCII fragment). -/
def equalFold (a b : Str) : Bool := lowerStr a = lowerStr b

/--
The slice of the `Book` state that `Cover` reads: the OPF directory, the
raw manifest items and metas, the processed guide and spine, the archive
entries, and — as an explicit parameter, since it wraps the external HTML
tokenizer — `findImg`, the library's `findFirstImageInHTML` (given the
XHTML bytes and their base path, it yields the resolved archive path of
the first image, or the empty string).
-/
structure CoverBook where
  opfDir : Str
  manifestItems : List OpfManifestItem
  metas : List OpfMeta
  guide : List GuideReference
  spine : List SpineItem
  archive : List ZipEntry
  findImg : Str → Str → Str

/-- The by-id manifest map of a book (`b.manifestByID`). -/
def CoverBook.byID (b : CoverBook) : Lookup ManifestItem :=
  (buildManifestMaps b.manifestItems).1

/-- The by-href manifest map of a book (`b.manifestByHref`). -/
def CoverBook.byHref (b : CoverBook) : Lookup ManifestItem :=
  (buildManifestMaps b.manifestItems).2

/-- `Book.findFile` over the archive index: exact match first (first
insertion wins), then case-insensitive. -/
def findFileB (archive : List ZipEntry) (name : Str) : Option ZipEntry :=
  match archive.find? (fun f => f.name = name) with
  | some f => some f
  | none => archive.find? (fun f => lowerStr f.name = lowerStr name)

/-- `Book.ReadFile` over an archive: locate the entry (case-insensitive
fallback) and read it with the default size limit; `ErrFileNotFound` when
absent. -/
def readFileArchive (archive : List ZipEntry) (name : Str) : Except ReadErr Str :=
  match findFileB archive name with
  | none => .error .fileNotFound
  | some f => readZipFile f

/-- `Book.ReadFile` for the cover book slice. -/
def readFileB (b : CoverBook) (name : Str) : Except ReadErr Str :=
  readFileArchive b.archive name

/-- `resolveImageManifestItem` from `cover.go`: make the archive path
relative to the OPF directory, look it (and the absolute path) up in the
by-href map, then fall back to a case-insensitive scan of the map's
values.  (Go iterates the map in unspecified order; the scan is modelled
in manifest document order through the by-href lookups.) -/
def resolveImageManifestItem (b : CoverBook) (absPath : Str) : Option ManifestItem :=
  let rel :=
    if b.opfDir ≠ ['.'] ∧ strStarts (b.opfDir ++ ['/']) absPath then
      absPath.drop (b.opfDir.length + 1)
    else absPath
  let c1 := match b.byHref rel with
    | some item => if isImageMediaType item.mediaType then some item else none
    | none => none
  match c1 with
  | some item => some item
  | none =>
    let c2 := match b.byHref absPath with
      | some item => if isImageMediaType item.mediaType then some item else none
      | none => none
    match c2 with
    | some item => some item
    | none =>
      b.manifestItems.findSome? fun raw =>
        match b.byHref raw.href with
        | none => none
        | some item =>
          if ¬ isImageMediaType item.mediaType then none
          else if lowerStr item.href = lowerStr rel ∨
              lowerStr item.href = lowerStr absPath then some item
          else if equalFold (resolveOPFPath b.opfDir item.href) absPath then
            some item
          else none

/-- Cover strategy 1 (`coverFromManifestProperties`): the first manifest
item, in document order, whose properties carry the `cover-image`
token. -/
def coverFromManifestProperties (b : CoverBook) : Option ManifestItem :=
  b.manifestItems.findSome? fun raw =>
    match b.byID raw.id with
    | none => none
    | some item =>
      if (fields item.properties).contains "cover-image".toList then some item
      else none

/-- Cover strategy 2 (`coverFromMetaCover`): a `<meta name="cover">`
resolved through the manifest; a non-image target is read as an XHTML
cover page whose first image is located. -/
def coverFromMetaCover (b : CoverBook) : Option ManifestItem :=
  b.metas.findSome? fun m =>
    if equalFold m.name "cover".toList ∧ m.content ≠ [] then
      match b.byID m.content with
      | none => none
      | some item =>
        if isImageMediaType item.mediaType then some item
        else
          let xhtmlPath := resolveOPFPath b.opfDir item.href
          match readFileB b xhtmlPath with
          | .error _ => none
          | .ok data =>
            let imgPath := b.findImg data xhtmlPath
            if imgPath ≠ [] then resolveImageManifestItem b imgPath else none
    else none

/-- Cover strategy 3 (`coverFromGuide`): a guide reference of type
`cover`, read as XHTML, first image resolved through the manifest. -/
def coverFromGuide (b : CoverBook) : Option ManifestItem :=
  b.guide.findSome? fun ref =>
    if equalFold ref.type "cover".toList then
      let href := hrefWithoutFragment ref.href
      let xhtmlPath := resolveOPFPath b.opfDir href
      match readFileB b xhtmlPath with
      | .error _ => none
      | .ok data =>
        let imgPath := b.findImg data xhtmlPath
        if imgPath = [] then none
        else resolveImageManifestItem b imgPath
    else none

/-- Cover strategy 4 (`coverFromManifestHeuristic`): the first image
manifest item whose id or href contains `cover` (case-insensitive). -/
def coverFromManifestHeuristic (b : CoverBook) : Option ManifestItem :=
  b.manifestItems.findSome? fun raw =>
    match b.byID raw.id with
    | none => none
    | some item =>
      if ¬ isImageMediaType item.mediaType then none
      else if containsFold item.id "cover".toList ∨
          containsFold item.href "cover".toList then some item
      else none

/-- Cover strategy 5 (`coverFromFirstSpine`): the first image of the
first spine item's XHTML. -/
def coverFromFirstSpine (b : CoverBook) : Option ManifestItem :=
  match b.spine with
  | [] => none
  | first :: _ =>
    if first.href = [] then none
    else
      let xhtmlPath := resolveOPFPath b.opfDir first.href
      match readFileB b xhtmlPath with
      | .error _ => none
      | .ok data =>
        let imgPath := b.findImg data xhtmlPath
        if imgPath = [] then none else resolveImageManifestItem b imgPath

/-- The detected cover image (`CoverImage`). -/
structure CoverImage where
  path : Str
  mediaType : Str
  data : Str
deriving DecidableEq, Repr

/-- The failure modes of `Cover`: the `ErrNoCover` sentinel, or the error
of reading the selected image from the archive. -/
inductive CoverError where
  | noCover
  | readErr (e : ReadErr)
deriving DecidableEq, Repr

/-- `loadCoverImage` from `cover.go`: read the selected item's bytes and
build the `CoverImage`; a read failure is returned as-is. -/
def loadCoverImage (b : CoverBook) (item : ManifestItem) :
    Except CoverError CoverImage :=
  let imgPath := resolveOPFPath b.opfDir item.href
  match readFileB b imgPath with
  | .error e => .error (.readErr e)
  | .ok data => .ok ⟨imgPath, item.mediaType, data⟩

/-- `Book.Cover`: the five strategies in priority order; the first one to
select a manifest item decides the outcome via `loadCoverImage`;
`ErrNoCover` only when no strategy selects anything. -/
def cover (b : CoverBook) : Except CoverError CoverImage :=
  match coverFromManifestProperties b with
  | some item => loadCoverImage b item
  | none =>
    match coverFromMetaCover b with
    | some item => loadCoverImage b item
    | none =>
      match coverFromGuide b with
      | some item => loadCoverImage b item
      | none =>
        match coverFromManifestHeuristic b with
        | some item => loadCoverImage b item
        | none =>
          match coverFromFirstSpine b with
          | some item => loadCoverImage b item
          | none => .error .noCover

/-- The first strategy selection, in priority order (specification-side
description of the cascade, for comparison with `cover`). -/
def firstSelectedCover (b : CoverBook) : Option ManifestItem :=
  (coverFromManifestProperties b).orElse fun _ =>
    (coverFromMetaCover b).orElse fun _ =>
      (coverFromGuide b).orElse fun _ =>
        (coverFromManifestHeuristic b).orElse fun _ => coverFromFirstSpine b

/-- A concrete book whose strategy-1 cover item points at a missing
archive entry while a later strategy's item is readable (used to settle
the cover-cascade claim). -/
def coverCounterBook : CoverBook where
  opfDir := "OEBPS".toList
  manifestItems :=
    [⟨"cimg".toList, "missing.png".toList, "image/png".toList,
      "cover-image".toList⟩,
     ⟨"c2".toList, "cover2.png".toList, "image/png".toList, []⟩]
  metas := []
  guide := []
  spine := []
  archive := [⟨"OEBPS/cover2.png".toList, 1, "X".toList⟩]
  findImg := fun _ _ => []

/-- A concrete book with a single readable strategy-1 cover (witness
fixture). -/
def coverWitnessBook : CoverBook where
  opfDir := "OEBPS".toList
  manifestItems :=
    [⟨"cimg".toList, "cover.png".toList, "image/png".toList,
      "cover-image".toList⟩]
  metas := []
  guide := []
  spine := []
  archive := [⟨"OEBPS/cover.png".toList, 1, "X".toList⟩]
  findImg := fun _ _ => []

/-! ### Title extraction (`metadata.go`) -/

/-- A raw Dublin Core element of the OPF metadata (`opfDCElement`). -/
structure OpfDCElement where
  value : Str
  id : Str
  fileAs : Str
  role : Str
  scheme : Str
deriving DecidableEq, Repr

/-- `buildRefinesMap` from `metadata.go`: map each element id (without the
leading `#`) to the list of metas refining it, in document order. -/
def buildRefinesMap (metas : List OpfMeta) : Lookup (List OpfMeta) :=
  metas.foldl
    (fun m meta =>
      if meta.refines = [] ∨ ¬ strStarts ['#'] meta.refines then m
      else
        let id := meta.refines.drop 1
        mapUpdate m id ((m id).getD [] ++ [meta]))
    emptyMap

/-- `findRefine` from `metadata.go`: the first refining meta for `id` with
the given property and a non-empty trimmed value. -/
def findRefine (refinesMap : Lookup (List OpfMeta)) (id property : Str) :
    Option Str :=
  ((refinesMap id).getD []).findSome? fun m =>
    if m.property = property then
      let v := trimSpace m.value
      if v ≠ [] then some v else none
    else none

/-- Digits of a decimal literal (helper for `strconv.Atoi`). -/
def parseDigits (s : Str) : Option Nat :=
  if s = [] then none
  else
    s.foldl
      (fun acc c =>
        match acc with
        | none => none
        | some n =>
          if '0' ≤ c ∧ c ≤ '9' then some (n * 10 + (c.toNat - '0'.toNat))
          else none)
      (some 0)

/-- Go `strconv.Atoi` (without the 64-bit overflow error, which the
display-seq values the library reads never reach). -/
def atoiGo : Str → Option Int
  | [] => none
  | '-' :: rest => (parseDigits rest).map (fun n => -(n : Int))
  | '+' :: rest => (parseDigits rest).map (fun n => (n : Int))
  | s => (parseDigits s).map (fun n => (n : Int))

/-- A collected title with its display sequence and original position
(the local `titleEntry` of `extractTitles`). -/
structure TitleEntry where
  value : Str
  seq : Int
  index : Nat
deriving DecidableEq, Repr

/-- The collection loop of `extractTitles`: keep titles with non-empty
trimmed text, read `display-seq` from the refines map of the title's id,
and record whether any real sequence number was seen. -/
def collectTitles (i : Nat) : List OpfDCElement → Lookup (List OpfMeta) →
    List TitleEntry × Bool
  | [], _ => ([], false)
  | t :: rest, rm =>
    let p := collectTitles (i + 1) rest rm
    let v := trimSpace t.value
    if v = [] then p
    else
      let sq : Int × Bool :=
        if t.id ≠ [] then
          match findRefine rm t.id "display-seq".toList with
          | some seqStr =>
            match atoiGo seqStr with
            | some n => (n, true)
            | none => (0, false)
          | none => (0, false)
        else (0, false)
      ((⟨v, sq.1, i⟩ : TitleEntry) :: p.1, sq.2 || p.2)

/-- The comparison function passed to `sort.SliceStable` in
`extractTitles`: titles without a sequence (seq `0`) go after titles with
one; among the former order by original index, among the latter ascending
by sequence. -/
def titleLt (a b : TitleEntry) : Bool :=
  if a.seq = 0 ∧ b.seq = 0 then decide (a.index < b.index)
  else if a.seq = 0 then false
  else if b.seq = 0 then true
  else decide (a.seq < b.seq)

/-- `extractTitles` from `metadata.go`.  Go's `sort.SliceStable` is a
stable sort by `titleLt`; it is modelled by the stable insertion sort
`isort`, which returns the same list for the strict weak order used
here. -/
def extractTitles (titles : List OpfDCElement) (rm : Lookup (List OpfMeta)) :
    List Str :=
  if titles = [] then []
  else if (collectTitles 0 titles rm).2 then
    (isort titleLt (collectTitles 0 titles rm).1).map (·.value)
  else (collectTitles 0 titles rm).1.map (·.value)

/-- The non-strict order that `titleLt`-sorting guarantees ignoring
stability: sequenced titles before unsequenced ones, ascending sequences,
unsequenced titles by index. -/
def titleR0 (a b : TitleEntry) : Prop :=
  (a.seq = 0 ∧ b.seq = 0 ∧ a.index ≤ b.index) ∨
  (a.seq ≠ 0 ∧ b.seq = 0) ∨
  (a.seq ≠ 0 ∧ b.seq ≠ 0 ∧ a.seq ≤ b.seq)

/-- The stability tracking order: a pair is either in original index
order, or was explicitly swapped by the comparison. -/
def titleS (a b : TitleEntry) : Prop :=
  a.index < b.index ∨ titleLt a b = true

/-! ### Gutenberg license detection (`chapter.go`) -/

/-- The single license-page patterns (`gutenbergPatterns`). -/
def gutenbergPatterns : List Str :=
  ["project gutenberg license".toList,
   "gutenberg.org/license".toList,
   "start of the project gutenberg license".toList,
   "end of the project gutenberg license".toList,
   "start of this project gutenberg ebook".toList,
   "end of this project gutenberg ebook".toList]

/-- The paired license-page patterns (`gutenbergComboPatterns`). -/
def gutenbergComboPatterns : List (Str × Str) :=
  [("project gutenberg".toList, "terms of use".toList),
   ("full license".toList, "gutenberg".toList)]

/-- The pattern search of `isGutenbergLicense` over the (already
lowercased) text. -/
def gutenbergTextMatch (text : Str) : Bool :=
  gutenbergPatterns.any (fun pat => strContains text pat) ||
    gutenbergComboPatterns.any
      (fun c => strContains text c.1 && strContains text c.2)

/-- `isGutenbergLicense` from `chapter.go`: extract the plain text (the
`ext` parameter models `extractText`, which wraps the external HTML
tokenizer; `none` models an extraction error) and search it lowercased;
on an extraction error, fall back to searching the lowercased raw
bytes. -/
def isGutenbergLicense (ext : Str → Option Str) (data : Str) : Bool :=
  let text :=
    match ext data with
    | some t => lowerStr t
    | none => lowerStr data
  gutenbergTextMatch text

/-- The slice of the `Book` state that `ContentChapters` reads: the built
chapter list, the archive, and the text extractor. -/
structure ChapterBook where
  chapters : List Chapter
  archive : List ZipEntry
  ext : Str → Option Str

/-- `Book.detectLicenses`: read each chapter's raw bytes and mark
Gutenberg license pages; chapters whose bytes cannot be read keep their
flag. -/
def detectLicenses (b : ChapterBook) : List Chapter :=
  b.chapters.map fun ch =>
    match readFileArchive b.archive ch.href with
    | .ok raw => { ch with isLicense := isGutenbergLicense b.ext raw }
    | .error _ => ch

/-- `Book.ContentChapters`: the detected chapter list without license
pages. -/
def contentChapters (b : ChapterBook) : List Chapter :=
  (detectLicenses b).filter fun ch => ¬ ch.isLicense

/-! ### HTML-entity preprocessing (`html.go`) -/

/-- `entityNameToNumeric` from `html.go`: the fixed table mapping
lowercase HTML entity names to their XML numeric character references.
The regular expression of `preprocessHTMLEntities` alternates over
exactly these names. -/
def entityTable : List (Str × Str) :=
  [("nbsp".toList, "&#160;".toList), ("mdash".toList, "&#8212;".toList),
   ("ndash".toList, "&#8211;".toList), ("hellip".toList, "&#8230;".toList),
   ("lsquo".toList, "&#8216;".toList), ("rsquo".toList, "&#8217;".toList),
   ("ldquo".toList, "&#8220;".toList), ("rdquo".toList, "&#8221;".toList),
   ("copy".toList, "&#169;".toList), ("reg".toList, "&#174;".toList),
   ("trade".toList, "&#8482;".toList), ("bull".toList, "&#8226;".toList),
   ("middot".toList, "&#183;".toList),
   ("eacute".toList, "&#233;".toList), ("egrave".toList, "&#232;".toList),
   ("ecirc".toList, "&#234;".toList), ("euml".toList, "&#235;".toList),
   ("aacute".toList, "&#225;".toList), ("agrave".toList, "&#224;".toList),
   ("acirc".toList, "&#226;".toList), ("auml".toList, "&#228;".toList),
   ("iacute".toList, "&#237;".toList), ("igrave".toList, "&#236;".toList),
   ("icirc".toList, "&#238;".toList), ("iuml".toList, "&#239;".toList),
   ("oacute".toList, "&#243;".toList), ("ograve".toList, "&#242;".toList),
   ("ocirc".toList, "&#244;".toList), ("ouml".toList, "&#246;".toList),
   ("uacute".toList, "&#250;".toList), ("ugrave".toList, "&#249;".toList),
   ("ucirc".toList, "&#251;".toList), ("uuml".toList, "&#252;".toList),
   ("ntilde".toList, "&#241;".toList), ("ccedil".toList, "&#231;".toList),
   ("times".toList, "&#215;".toList), ("divide".toList, "&#247;".toList),
   ("deg".toList, "&#176;".toList), ("para".toList, "&#182;".toList),
   ("sect".toList, "&#167;".toList),
   ("laquo".toList, "&#171;".toList), ("raquo".toList, "&#187;".toList),
   ("iexcl".toList, "&#161;".toList), ("iquest".toList, "&#191;".toList)]

/-- The replacement for one candidate entity name: look the lowercased
name up in the table (the regular expression matches
case-insensitively). -/
def entityNum (cand : Str) : Option Str :=
  (entityTable.find? (fun p => p.1 = lowerStr cand)).map (·.2)

/-- `preprocessHTMLEntities` from `html.go`: scan left to right; at each
`&`, when the characters up to the next `;` form (case-insensitively) a
name of the table, replace `&name;` by its numeric character reference
and continue after the match; everything else is copied unchanged.  This
scanner is the replacement semantics of the source's
`regexp.ReplaceAllFunc` with its `&(name1|…);` pattern: matches start at
`&`, extend to the closing `;`, never overlap, and scanning resumes
after each replacement. -/
def preprocessGo : Nat → Str → Str
  | _, [] => []
  | 0, s => s
  | fuel + 1, c :: rest =>
    if c = '&' then
      if (rest.takeWhile (· ≠ ';')).length < rest.length ∧
          (entityNum (rest.takeWhile (· ≠ ';'))).isSome = true then
        (entityNum (rest.takeWhile (· ≠ ';'))).getD [] ++
          preprocessGo fuel (rest.drop ((rest.takeWhile (· ≠ ';')).length + 1))
      else c :: preprocessGo fuel rest
    else c :: preprocessGo fuel rest

/-- The scanner, run with enough fuel for the whole input. -/
def preprocessHTMLEntities (s : Str) : Str := preprocessGo s.length s

/-- The entity names the XML decoder already understands; the table (and
the regular expression) deliberately leaves them out. -/
def preservedEntityNames : List Str :=
  ["amp".toList, "lt".toList, "gt".toList, "quot".toList, "apos".toList]

/-- Well-formedness of a table key: a word of lowercase ASCII letters.
Every key of `entityTable` satisfies it — in particular no key contains
`&`, `#` or `;`. -/
def keyAlpha (k : Str) : Bool := k.all (fun c => 'a' ≤ c && c ≤ 'z')

/-- Shape of a replacement value: a numeric character reference — `&`,
then `#`, then a tail (digits and the closing `;`) free of further `&`.
Every value of `entityTable` satisfies it. -/
def valShape (v : Str) : Bool :=
  match v with
  | a :: b :: z => a = '&' && b = '#' && z.all (fun c => c ≠ '&')
  | _ => false

/-! ## Theorems -/

-- Sanity checks: the repository's own `TestResolveRelativePath` and
-- `TestIsSafePath` vectors, reproduced against the embedding.

theorem resolve_vec_same_dir :
    resolveRelativePath "OEBPS/content.opf".toList "toc.ncx".toList
      = "OEBPS/toc.ncx".toList := by decide

theorem resolve_vec_parent_dir :
    resolveRelativePath "OEBPS/content.opf".toList "../images/cover.jpg".toList
      = "images/cover.jpg".toList := by decide

theorem resolve_vec_deeply_nested :
    resolveRelativePath "a/b/c/d.opf".toList "../../e/f.html".toList
      = "a/e/f.html".toList := by decide

theorem resolve_vec_dot_href :
    resolveRelativePath "OEBPS/content.opf".toList "./styles/main.css".toList
      = "OEBPS/styles/main.css".toList := by decide

theorem resolve_vec_traversal_escape :
    resolveRelativePath "OEBPS/content.opf".toList "../../../secret.txt".toList
      = [] := by decide

theorem resolve_vec_absolute_href :
    resolveRelativePath "OEBPS/content.opf".toList "/etc/passwd".toList
      = [] := by decide

theorem resolve_vec_root_base :
    resolveRelativePath "content.opf".toList "chapter1.xhtml".toList
      = "chapter1.xhtml".toList := by decide

theorem safe_vec_examples :
    isSafePath "OEBPS/content.opf".toList = true ∧
    isSafePath ".".toList = true ∧
    isSafePath "..".toList = false ∧
    isSafePath "../etc/passwd".toList = false ∧
    isSafePath "a/../../etc/passwd".toList = false ∧
    isSafePath "/etc/passwd".toList = false ∧
    isSafePath "OEBPS/../../secret".toList = false := by decide

/-! ### Claim C5: outputs of the path resolver stay inside the archive -/

/-- A rooted path stays rooted after cleaning. -/
theorem clean_rooted {r : Str} (h : strStarts ['/'] r = true) :
    strStarts ['/'] (clean r) = true := by
  cases r with
  | nil => simp [strStarts] at h
  | cons c rest =>
    have hc : c = '/' := by
      simp [strStarts] at h
      exact h.symm
    subst hc
    simp [clean, h, strStarts]

/-- One `cleanStep` of a relative path preserves a bottom-of-stack `..`
component. -/
theorem cleanStep_keeps_dotdot (e : Str) (pre : List Str) :
    ∃ pre', cleanStep false (pre ++ [['.', '.']]) e = pre' ++ [['.', '.']] := by
  unfold cleanStep
  by_cases h1 : e = [] ∨ e = ['.']
  · exact ⟨pre, by simp [h1]⟩
  · by_cases h2 : e = ['.', '.']
    · subst h2
      simp only [h1, if_false, if_true]
      cases pre with
      | nil =>
        exact ⟨[['.', '.']], by simp⟩
      | cons p ps =>
        by_cases hp : p = ['.', '.']
        · exact ⟨['.', '.'] :: p :: ps, by simp [hp]⟩
        · exact ⟨ps, by simp [hp]⟩
    · exact ⟨e :: pre, by simp [h1, h2]⟩

/-- Folding `cleanStep` over any components preserves a bottom-of-stack
`..` component of a relative path. -/
theorem foldl_keeps_dotdot (elems : List Str) :
    ∀ pre : List Str,
      ∃ pre', elems.foldl (cleanStep false) (pre ++ [['.', '.']])
        = pre' ++ [['.', '.']] := by
  induction elems with
  | nil => exact fun pre => ⟨pre, rfl⟩
  | cons e es ih =>
    intro pre
    obtain ⟨pre1, h1⟩ := cleanStep_keeps_dotdot e pre
    obtain ⟨pre2, h2⟩ := ih pre1
    exact ⟨pre2, by simp only [List.foldl_cons, h1, h2]⟩

/-- Cleaning a path that leads with a `../` traversal yields `..` itself or
another path leading with `../`. -/
theorem clean_dotdot_leading {r : Str} (h : strStarts ['.', '.', '/'] r = true) :
    clean r = ['.', '.'] ∨ strStarts ['.', '.', '/'] (clean r) = true := by
  obtain ⟨t, rfl⟩ : ∃ t, r = '.' :: '.' :: '/' :: t := by
    cases r with
    | nil => simp [strStarts] at h
    | cons a r1 =>
      cases r1 with
      | nil => simp [strStarts] at h
      | cons b r2 =>
        cases r2 with
        | nil => simp [strStarts] at h
        | cons c t =>
          simp only [strStarts, Bool.and_eq_true, decide_eq_true_eq] at h
          exact ⟨t, by rw [← h.1, ← h.2.1, ← h.2.2.1]⟩
  have hsplit : splitOnSep '/' ('.' :: '.' :: '/' :: t)
      = ['.', '.'] :: splitOnSep '/' t := by
    simp [splitOnSep]
  have hrooted : strStarts ['/'] ('.' :: '.' :: '/' :: t) = false := by
    simp [strStarts]
  have hfirst : cleanStep false [] ['.', '.'] = [['.', '.']] := by
    simp [cleanStep]
  obtain ⟨pre, hpre⟩ :=
    foldl_keeps_dotdot (splitOnSep '/' t) ([] : List Str)
  simp only [List.nil_append] at hpre
  have hfold : (splitOnSep '/' ('.' :: '.' :: '/' :: t)).foldl
      (cleanStep false) [] = pre ++ [['.', '.']] := by
    rw [hsplit, List.foldl_cons, hfirst, hpre]
  have hclean : clean ('.' :: '.' :: '/' :: t)
      = joinSep (['.', '.'] :: pre.reverse) := by
    simp only [clean, hrooted]
    simp [hfold]
  rw [hclean]
  cases hp : pre.reverse with
  | nil => left; simp [joinSep]
  | cons q qs => right; simp [joinSep, strStarts]

/-- `..` cleans to itself. -/
theorem clean_dotdot : clean ['.', '.'] = ['.', '.'] := by decide

/--
C5, amended.  The claim stated that a non-empty result of
`resolveRelativePath` never starts with `/` and never starts with `..`;
the code's `isSafePath` only refuses results that are rooted, equal to
`..`, or lead with the traversal component `../`, so a result such as
`..foo` (starting with `..` but not a traversal) is returned.  Amended
property: every non-empty result of `resolveRelativePath` does not start
with `/`, is not `..`, and does not start with `../` — it stays within
the archive root.
-/
theorem resolveRelativePath_stays_in_root (basePath href : Str)
    (h : resolveRelativePath basePath href ≠ []) :
    strStarts ['/'] (resolveRelativePath basePath href) = false ∧
    resolveRelativePath basePath href ≠ ['.', '.'] ∧
    strStarts ['.', '.', '/'] (resolveRelativePath basePath href) = false := by
  unfold resolveRelativePath at *
  set href1 := trimSpace href with hhref1
  by_cases habs : strStarts ['/'] href1 = true
  · simp [habs] at h
  · simp only [habs, Bool.false_eq_true, if_false] at h ⊢
    set href2 := (match pathUnescape href1 with
      | some decoded => decoded
      | none => href1) with hhref2
    set cleaned := clean (joinPath (dirOf basePath) href2) with hcleaned
    by_cases hsafe : isSafePath cleaned = true
    · simp only [hsafe, if_true] at h ⊢
      refine ⟨?_, ?_, ?_⟩
      · by_contra hroot
        rw [Bool.not_eq_false] at hroot
        have := clean_rooted hroot
        simp [isSafePath, this] at hsafe
      · intro heq
        rw [heq] at hsafe
        simp [isSafePath, clean_dotdot, strStarts] at hsafe
      · by_contra hdd
        rw [Bool.not_eq_false] at hdd
        rcases clean_dotdot_leading hdd with hc | hc
        · have hnr : strStarts ['/'] (clean cleaned) = false := by
            rw [hc]; decide
          simp [isSafePath, hnr, hc] at hsafe
        · have hnr : strStarts ['/'] (clean cleaned) = false := by
            revert hc
            cases clean cleaned with
            | nil => intro hc; simp [strStarts] at hc
            | cons c cs =>
              intro hc
              have : c = '.' := by
                simp [strStarts, Bool.and_eq_true] at hc
                exact hc.1.symm
              subst this; simp [strStarts]
          simp [isSafePath, hnr, hc] at hsafe
    · simp [hsafe] at h

/-- Witness for `resolveRelativePath_stays_in_root` at a concrete input. -/
theorem resolveRelativePath_stays_in_root_witness :
    resolveRelativePath "OEBPS/content.opf".toList "toc.ncx".toList ≠ [] ∧
    (strStarts ['/']
        (resolveRelativePath "OEBPS/content.opf".toList "toc.ncx".toList) = false ∧
      resolveRelativePath "OEBPS/content.opf".toList "toc.ncx".toList ≠ ['.', '.'] ∧
      strStarts ['.', '.', '/']
        (resolveRelativePath "OEBPS/content.opf".toList "toc.ncx".toList) = false) :=
  ⟨by decide, resolveRelativePath_stays_in_root _ _ (by decide)⟩

/--
C5, counterexample to the claim as stated: the resolver applied to base
path `x` and href `..foo` returns the non-empty path `..foo`, which does
start with the two characters `..` — the claim's "does not start with
`..`" is violated (only rooted paths, `..` itself, and `../` traversals
are refused by the code).
-/
theorem resolveRelativePath_dotdot_counterexample :
    resolveRelativePath "x".toList "..foo".toList = "..foo".toList ∧
    strStarts ['.', '.'] "..foo".toList = true := by decide

/-! ### Claim C2: duplicate handling in the manifest maps -/

/-- Folding Go map assignments over a list: the lookup of `k` returns the
value of the last list element whose key is `k`, falling back to the
initial map. -/
theorem foldl_mapUpdate_lookup {α β : Type} (key : β → Str) (val : β → α) :
    ∀ (l : List β) (m0 : Lookup α) (k : Str),
      (l.foldl (fun m it => mapUpdate m (key it) (val it)) m0) k
        = match (l.filter (fun it => key it = k)).getLast? with
          | some it => some (val it)
          | none => m0 k := by
  intro l
  induction l with
  | nil => intro m0 k; simp
  | cons it l ih =>
    intro m0 k
    rw [List.foldl_cons, ih]
    by_cases hk : key it = k
    · subst hk
      simp only [List.filter_cons, decide_eq_true_eq, if_pos rfl]
      cases hfl : l.filter (fun x => key x = key it) with
      | nil => simp [mapUpdate]
      | cons j js =>
        simp only [if_true, List.getLast?_cons_cons]
        cases hgl : (j :: js).getLast? with
        | none => exact absurd (List.getLast?_eq_none_iff.mp hgl) (by simp)
        | some a => simp
    · have hd : (decide (key it = k)) = false := decide_eq_false hk
      simp only [List.filter_cons, hd, Bool.false_eq_true, if_false]
      cases hfl : l.filter (fun x => key x = k) with
      | nil =>
        simp only [List.getLast?_nil, mapUpdate]
        exact if_neg (fun h : k = key it => hk h.symm)
      | cons j js =>
        cases hgl : (j :: js).getLast? with
        | none => exact absurd (List.getLast?_eq_none_iff.mp hgl) (by simp)
        | some a => simp

/-- The pairwise fold of `buildManifestMaps` splits into two independent
folds. -/
theorem buildManifestMaps_split (items : List OpfManifestItem) :
    buildManifestMaps items
      = (items.foldl (fun m it => mapUpdate m it.id (toManifestItem it)) emptyMap,
         items.foldl (fun m it => mapUpdate m it.href (toManifestItem it)) emptyMap) := by
  suffices h : ∀ (m1 m2 : Lookup ManifestItem),
      items.foldl
        (fun maps it =>
          (mapUpdate maps.1 it.id (toManifestItem it),
           mapUpdate maps.2 it.href (toManifestItem it)))
        (m1, m2)
      = (items.foldl (fun m it => mapUpdate m it.id (toManifestItem it)) m1,
         items.foldl (fun m it => mapUpdate m it.href (toManifestItem it)) m2) by
    exact h emptyMap emptyMap
  induction items with
  | nil => intro m1 m2; rfl
  | cons it l ih => intro m1 m2; simp only [List.foldl_cons]; exact ih _ _

/--
C2, amended.  The claim stated that the first manifest item in document
order wins duplicate lookups; `buildManifestMaps` assigns into both Go
maps with plain `m[k] = v` statements in a single loop, so the LAST item
in document order with a given id (resp. href) wins every later lookup.
-/
theorem buildManifestMaps_last_wins (items : List OpfManifestItem) (k : Str) :
    (buildManifestMaps items).1 k
      = ((items.filter (fun it => it.id = k)).getLast?).map toManifestItem ∧
    (buildManifestMaps items).2 k
      = ((items.filter (fun it => it.href = k)).getLast?).map toManifestItem := by
  rw [buildManifestMaps_split]
  dsimp only
  constructor
  · rw [foldl_mapUpdate_lookup (fun it : OpfManifestItem => it.id) toManifestItem]
    cases (items.filter (fun it => it.id = k)).getLast? <;> simp [emptyMap]
  · rw [foldl_mapUpdate_lookup (fun it : OpfManifestItem => it.href) toManifestItem]
    cases (items.filter (fun it => it.href = k)).getLast? <;> simp [emptyMap]

/--
C2, counterexample to the claim as stated: with two manifest items sharing
id `a`, the by-id map returns the second (last) one, not the first.
-/
theorem buildManifestMaps_first_wins_counterexample :
    (buildManifestMaps
        [⟨"a".toList, "h1.xhtml".toList, [], []⟩,
         ⟨"a".toList, "h2.xhtml".toList, [], []⟩]).1 "a".toList
      = some (toManifestItem ⟨"a".toList, "h2.xhtml".toList, [], []⟩) ∧
    toManifestItem (⟨"a".toList, "h2.xhtml".toList, [], []⟩ : OpfManifestItem)
      ≠ toManifestItem ⟨"a".toList, "h1.xhtml".toList, [], []⟩ := by decide

/-! ### Claim C3: the chapter list mirrors the spine -/

/--
C3, amended.  `Chapters` returns exactly one chapter per spine item, in
spine order, with id and linear flag taken from the spine item; the
chapter's href is `resolveOPFPath` (a plain lexical join of the OPF
directory and the spine href) — NOT the resolver `resolve(package_path,
href)` of the specification's §4.2, which additionally trims, refuses
archive-absolute hrefs, percent-decodes, and refuses results escaping the
archive root.
-/
theorem chapters_one_per_spine (opfDir : Str) (toc : List TOCItem)
    (spine : List SpineItem) :
    (chaptersOf opfDir spine toc).length = spine.length ∧
    ∀ i (hi : i < spine.length) (hi' : i < (chaptersOf opfDir spine toc).length),
      ((chaptersOf opfDir spine toc).get ⟨i, hi'⟩).href
          = resolveOPFPath opfDir ((spine.get ⟨i, hi⟩).href) ∧
      ((chaptersOf opfDir spine toc).get ⟨i, hi'⟩).id = (spine.get ⟨i, hi⟩).id ∧
      ((chaptersOf opfDir spine toc).get ⟨i, hi'⟩).linear
          = (spine.get ⟨i, hi⟩).linear := by
  refine ⟨by simp [chaptersOf], ?_⟩
  intro i hi hi'
  simp [chaptersOf, List.get_eq_getElem, List.getElem_map]

/-- Witness for `chapters_one_per_spine` at a concrete one-item spine. -/
theorem chapters_one_per_spine_witness :
    (chaptersOf "OEBPS".toList [⟨"c1".toList, "ch1.xhtml".toList, [], true, "c1".toList⟩]
        []).length = 1 ∧
    ((chaptersOf "OEBPS".toList [⟨"c1".toList, "ch1.xhtml".toList, [], true, "c1".toList⟩]
        []).get ⟨0, by decide⟩).href
      = resolveOPFPath "OEBPS".toList "ch1.xhtml".toList := by
  obtain ⟨h1, h2⟩ := chapters_one_per_spine "OEBPS".toList []
    [⟨"c1".toList, "ch1.xhtml".toList, [], true, "c1".toList⟩]
  exact ⟨h1, (h2 0 (by decide) (by decide)).1⟩

/--
C3, counterexample to the claim as stated: for a book whose package file
is `OEBPS/content.opf` and a spine href `../../x`, the produced chapter
href is the lexical join `../x`, while the specification's resolver
`resolve(package_path, href)` refuses the escaping href and returns the
empty string.
-/
theorem chapters_resolver_counterexample :
    dirOf "OEBPS/content.opf".toList = "OEBPS".toList ∧
    (chaptersOf "OEBPS".toList [⟨[], "../../x".toList, [], true, []⟩] []).map
        Chapter.href = ["../x".toList] ∧
    resolveRelativePath "OEBPS/content.opf".toList "../../x".toList = [] ∧
    "../x".toList ≠ ([] : Str) := by decide

/-! ### Claim C1: spine coverage ranges of the navigation trees -/

mutual
/-- Flattening commutes with `assignSpineIndices` on one entry, at the
level of (href, spineIndex, spineEndIndex) data. -/
theorem flattenItem_assign (m : Lookup Nat) :
    ∀ x : TOCItem, (flattenItem (assignItem m x)).map projHSE
      = (flattenItem x).map
          (fun y => (y.href, assignVal m y.href y.spineIndex, y.spineEndIndex))
  | .mk t h ch s e => by
    simp only [assignItem, flattenItem, List.map_cons, flattenItems_assign m ch]
    rfl

/-- Flattening commutes with `assignSpineIndices` on a forest. -/
theorem flattenItems_assign (m : Lookup Nat) :
    ∀ l : List TOCItem, (flattenItems (assignItems m l)).map projHSE
      = (flattenItems l).map
          (fun y => (y.href, assignVal m y.href y.spineIndex, y.spineEndIndex))
  | [] => by simp [assignItems, flattenItems]
  | x :: xs => by
    simp only [assignItems, flattenItems, List.map_append]
    rw [flattenItem_assign m x, flattenItems_assign m xs]
end

mutual
/-- Flattening commutes with the range-application pass of
`computeSpineRanges` on one entry. -/
theorem flattenItem_setEnd (f : Int → Int) :
    ∀ x : TOCItem, (flattenItem (setEndItem f x)).map projHSE
      = (flattenItem x).map
          (fun y => (y.href, y.spineIndex,
            if 0 ≤ y.spineIndex then f y.spineIndex else -1))
  | .mk t h ch s e => by
    simp only [setEndItem, flattenItem, List.map_cons, flattenItems_setEnd f ch]
    rfl

/-- Flattening commutes with the range-application pass on a forest. -/
theorem flattenItems_setEnd (f : Int → Int) :
    ∀ l : List TOCItem, (flattenItems (setEndItems f l)).map projHSE
      = (flattenItems l).map
          (fun y => (y.href, y.spineIndex,
            if 0 ≤ y.spineIndex then f y.spineIndex else -1))
  | [] => by simp [setEndItems, flattenItems]
  | x :: xs => by
    simp only [setEndItems, flattenItems, List.map_append]
    rw [flattenItem_setEnd f x, flattenItems_setEnd f xs]
end

/-- Member transfer through a nodewise data rewriting of the flattened
forest: every entry of the rewritten forest carries the rewritten data of
some entry of the original forest. -/
theorem mem_of_map_projHSE {l' l : List TOCItem}
    {g : TOCItem → Str × Int × Int}
    (hmap : l'.map projHSE = l.map g) {x : TOCItem} (hx : x ∈ l') :
    ∃ y ∈ l, projHSE x = g y := by
  have : projHSE x ∈ l'.map projHSE := List.mem_map_of_mem projHSE hx
  rw [hmap] at this
  obtain ⟨y, hy, hxy⟩ := List.mem_map.mp this
  exact ⟨y, hy, hxy.symm⟩

/-- The spine map only holds positions inside the spine. -/
theorem buildSpineMap_lt {hrefs : List Str} {k : Str} {i : Nat}
    (h : buildSpineMap hrefs k = some i) : i < hrefs.length := by
  unfold buildSpineMap at h
  rw [foldl_mapUpdate_lookup (fun p : Nat × Str => p.2) (fun p => p.1)] at h
  cases hfl : (hrefs.enum.filter (fun p => p.2 = k)).getLast? with
  | none => rw [hfl] at h; simp [emptyMap] at h
  | some p =>
    rw [hfl] at h
    have hp : p ∈ hrefs.enum.filter (fun q => q.2 = k) := by
      obtain ⟨hne, rfl⟩ := List.mem_getLast?_eq_getLast (Option.mem_def.mpr hfl)
      exact List.getLast_mem hne
    have hp2 : p ∈ hrefs.enum := List.mem_of_mem_filter hp
    have hlt : p.1 < hrefs.length := by
      rw [List.mem_enum_iff_getElem?] at hp2
      exact (List.getElem?_eq_some.mp hp2).1
    simp only [Option.some.injEq] at h
    omega

/-- Membership in the collected distinct spine indices of
`computeSpineRanges`. -/
theorem mem_collectIndices {l : List Int} {s : Int} :
    s ∈ collectIndices l ↔ s ∈ l ∧ 0 ≤ s := by
  have aux : ∀ (l : List Int) (acc : List Int),
      s ∈ l.foldl (fun acc t => if 0 ≤ t ∧ t ∉ acc then acc ++ [t] else acc) acc
        ↔ s ∈ acc ∨ (s ∈ l ∧ 0 ≤ s) := by
    intro l
    induction l with
    | nil => intro acc; simp
    | cons a l ih =>
      intro acc
      rw [List.foldl_cons, ih]
      by_cases hc : 0 ≤ a ∧ a ∉ acc
      · rw [if_pos hc]
        simp only [List.mem_append, List.mem_cons, List.not_mem_nil, or_false]
        constructor
        · rintro ((h | rfl) | h)
          · exact Or.inl h
          · exact Or.inr ⟨Or.inl rfl, hc.1⟩
          · exact Or.inr ⟨Or.inr h.1, h.2⟩
        · rintro (h | ⟨(rfl | h), hs⟩)
          · exact Or.inl (Or.inl h)
          · exact Or.inl (Or.inr rfl)
          · exact Or.inr ⟨h, hs⟩
      · rw [if_neg hc]
        simp only [List.mem_cons]
        constructor
        · rintro (h | h)
          · exact Or.inl h
          · exact Or.inr ⟨Or.inr h.1, h.2⟩
        · rintro (h | ⟨(rfl | h), hs⟩)
          · exact Or.inl h
          · push_neg at hc
            exact Or.inl (hc hs)
          · exact Or.inr ⟨h, hs⟩
  rw [collectIndices, aux]
  simp

/-- The collected spine indices hold no duplicates. -/
theorem collectIndices_nodup (l : List Int) : (collectIndices l).Nodup := by
  have aux : ∀ (l : List Int) (acc : List Int), acc.Nodup →
      (l.foldl (fun acc t => if 0 ≤ t ∧ t ∉ acc then acc ++ [t] else acc)
        acc).Nodup := by
    intro l
    induction l with
    | nil => intro acc h; exact h
    | cons a l ih =>
      intro acc h
      rw [List.foldl_cons]
      by_cases hc : 0 ≤ a ∧ a ∉ acc
      · rw [if_pos hc]
        refine ih _ ?_
        have hperm : (acc ++ [a]).Perm (a :: acc) := List.perm_append_singleton a acc
        rw [hperm.nodup_iff, List.nodup_cons]
        exact ⟨hc.2, h⟩
      · rw [if_neg hc]
        exact ih _ h
  exact aux l [] List.nodup_nil

/-- `insertSorted` permutes to consing the new element. -/
theorem insertSorted_perm {α} (lt : α → α → Bool) (x : α) :
    ∀ l : List α, (insertSorted lt x l).Perm (x :: l)
  | [] => List.Perm.refl _
  | y :: ys => by
    unfold insertSorted
    by_cases h : lt x y = true
    · simp [h]
    · simp only [h, if_false, Bool.false_eq_true]
      exact ((insertSorted_perm lt x ys).cons y).trans (List.Perm.swap x y ys)

/-- The stable sort is a permutation of its input. -/
theorem isort_perm {α} (lt : α → α → Bool) (l : List α) :
    (isort lt l).Perm l := by
  have aux : ∀ (l acc : List α),
      (l.foldl (fun acc x => insertSorted lt x acc) acc).Perm (acc ++ l) := by
    intro l
    induction l with
    | nil => intro acc; simp
    | cons x xs ih =>
      intro acc
      rw [List.foldl_cons]
      refine (ih _).trans ?_
      refine (((insertSorted_perm lt x acc).append_right xs).trans ?_)
      exact List.perm_middle.symm.trans (by simp)
  simpa using aux l []

/-- Membership in an `insertSorted` result. -/
theorem mem_insertSorted {α} {lt : α → α → Bool} {x a : α} {l : List α} :
    a ∈ insertSorted lt x l ↔ a = x ∨ a ∈ l := by
  rw [(insertSorted_perm lt x l).mem_iff, List.mem_cons]

/-- `insertSorted` preserves pairwise ordering by any relation compatible
with the boolean comparison. -/
theorem insertSorted_pairwise {α} {lt : α → α → Bool} {R : α → α → Prop}
    (H1 : ∀ a b, lt a b = true → R a b)
    (H2 : ∀ a b, lt a b = false → R b a)
    (H3 : ∀ a b c, lt a b = true → R b c → R a c)
    (x : α) :
    ∀ l : List α, l.Pairwise R → (insertSorted lt x l).Pairwise R
  | [] => fun _ => by simp [insertSorted]
  | y :: ys => fun hl => by
    rw [List.pairwise_cons] at hl
    unfold insertSorted
    by_cases h : lt x y = true
    · simp only [h, if_true]
      rw [List.pairwise_cons]
      refine ⟨?_, List.pairwise_cons.mpr hl⟩
      intro z hz
      rcases List.mem_cons.mp hz with rfl | hz
      · exact H1 _ _ h
      · exact H3 _ _ _ h (hl.1 z hz)
    · simp only [h, if_false, Bool.false_eq_true]
      rw [List.pairwise_cons]
      refine ⟨?_, insertSorted_pairwise H1 H2 H3 x ys hl.2⟩
      intro z hz
      rcases mem_insertSorted.mp hz with rfl | hz
      · exact H2 _ _ (by simpa using h)
      · exact hl.1 z hz

/-- The stable sort is pairwise-ordered by any relation compatible with
the boolean comparison. -/
theorem isort_pairwise {α} {lt : α → α → Bool} {R : α → α → Prop}
    (H1 : ∀ a b, lt a b = true → R a b)
    (H2 : ∀ a b, lt a b = false → R b a)
    (H3 : ∀ a b c, lt a b = true → R b c → R a c)
    (l : List α) : (isort lt l).Pairwise R := by
  have aux : ∀ (l acc : List α), acc.Pairwise R →
      (l.foldl (fun acc x => insertSorted lt x acc) acc).Pairwise R := by
    intro l
    induction l with
    | nil => intro acc h; exact h
    | cons x xs ih =>
      intro acc h
      rw [List.foldl_cons]
      exact ih _ (insertSorted_pairwise H1 H2 H3 x acc h)
  exact aux l [] List.Pairwise.nil

/-- The successor lookup of `computeSpineRanges` is strictly above its key
and bounded by the spine length, over a strictly increasing chain whose
members are all below the bound. -/
theorem endLookup_bounds {sorted : List Int} {L s : Int}
    (hs : s ∈ sorted) (hchain : sorted.Pairwise (· < ·))
    (hbound : ∀ x ∈ sorted, x < L) :
    s < endLookup sorted L s ∧ endLookup sorted L s ≤ L := by
  induction sorted with
  | nil => cases hs
  | cons a rest ih =>
    rw [List.pairwise_cons] at hchain
    unfold endLookup
    by_cases ha : a = s
    · subst ha
      simp only [if_pos rfl]
      cases rest with
      | nil => exact ⟨hbound a (List.mem_cons_self a []), le_refl L⟩
      | cons b bs =>
        refine ⟨hchain.1 b (List.mem_cons_self b bs), ?_⟩
        exact le_of_lt (hbound b (List.mem_cons_of_mem a (List.mem_cons_self b bs)))
    · simp only [ha, if_false]
      have hs' : s ∈ rest := by
        rcases List.mem_cons.mp hs with rfl | h
        · exact absurd rfl ha
        · exact h
      exact ih hs' hchain.2 (fun x hx => hbound x (List.mem_cons_of_mem a hx))

/-- After `assignSpineIndices` on a freshly parsed forest, every entry
still has end index `-1`, and its spine index is `-1` or a valid spine
position. -/
theorem assign_fresh_flat (spineHrefs : List Str) (items : List TOCItem)
    (hfresh : FreshForest items) :
    ∀ x ∈ flattenItems (assignItems (buildSpineMap spineHrefs) items),
      x.spineEndIndex = -1 ∧
      (x.spineIndex = -1 ∨
        (0 ≤ x.spineIndex ∧ x.spineIndex < (spineHrefs.length : Int))) := by
  intro x hx
  obtain ⟨y, hy, hxy⟩ :=
    mem_of_map_projHSE (flattenItems_assign (buildSpineMap spineHrefs) items) hx
  obtain ⟨hys, hye⟩ := hfresh y hy
  have hx1 : x.spineIndex
      = assignVal (buildSpineMap spineHrefs) y.href y.spineIndex :=
    congrArg (fun p : Str × Int × Int => p.2.1) hxy
  have hx2 : x.spineEndIndex = y.spineEndIndex :=
    congrArg (fun p : Str × Int × Int => p.2.2) hxy
  refine ⟨by rw [hx2, hye], ?_⟩
  rw [hx1, hys]
  unfold assignVal
  by_cases hh : y.href = []
  · simp [hh]
  · simp only [ne_eq, hh, not_false_eq_true, if_true]
    cases hlk : buildSpineMap spineHrefs (hrefWithoutFragment y.href) with
    | none => left; rfl
    | some i =>
      right
      refine ⟨?_, ?_⟩
      · show (0 : Int) ≤ (i : Int)
        exact Int.ofNat_nonneg i
      · show (i : Int) < (spineHrefs.length : Int)
        exact_mod_cast buildSpineMap_lt hlk

/-- The spine indices of the flattened forest after `assignSpineIndices`. -/
theorem flatten_assign_spineIndex (m : Lookup Nat) (l : List TOCItem) :
    (flattenItems (assignItems m l)).map TOCItem.spineIndex
      = (flattenItems l).map (fun y => assignVal m y.href y.spineIndex) := by
  have key : ∀ L : List TOCItem,
      L.map TOCItem.spineIndex = (L.map projHSE).map (fun p => p.2.1) := by
    intro L
    rw [List.map_map]
    exact List.map_congr_left (fun x _ => rfl)
  rw [key, flattenItems_assign, List.map_map]
  exact List.map_congr_left (fun x _ => rfl)

/-- The core of C1 for the toc tree: after `computeSpineRanges` over a
forest whose entries have end index `-1` and spine index `-1` or inside
`[0, L)`, every entry satisfies the coverage-range invariant. -/
theorem computeSpineRanges_invariant (L : Nat) (items : List TOCItem)
    (hpre : ∀ z ∈ flattenItems items,
      z.spineEndIndex = -1 ∧
        (z.spineIndex = -1 ∨ (0 ≤ z.spineIndex ∧ z.spineIndex < (L : Int)))) :
    ∀ x ∈ flattenItems (computeSpineRanges items L),
      (x.spineIndex = -1 ↔ x.spineEndIndex = -1) ∧
      (x.spineIndex ≠ -1 →
        0 ≤ x.spineIndex ∧ x.spineIndex < x.spineEndIndex ∧
          x.spineEndIndex ≤ (L : Int)) := by
  intro x hx
  cases hit : items with
  | nil => subst hit; simp [computeSpineRanges, flattenItems] at hx
  | cons a rest =>
    subst hit
    by_cases hind :
        collectIndices ((flattenItems (a :: rest)).map TOCItem.spineIndex) = []
    · have hre : computeSpineRanges (a :: rest) L = a :: rest := by
        simp only [computeSpineRanges]
        rw [if_pos hind]
      rw [hre] at hx
      obtain ⟨hze, hzs⟩ := hpre x hx
      have hs1 : x.spineIndex = -1 := by
        rcases hzs with h | ⟨h0, _⟩
        · exact h
        · exfalso
          have hmem : x.spineIndex ∈ collectIndices
              ((flattenItems (a :: rest)).map TOCItem.spineIndex) :=
            mem_collectIndices.mpr ⟨List.mem_map_of_mem TOCItem.spineIndex hx, h0⟩
          rw [hind] at hmem
          exact absurd hmem (List.not_mem_nil _)
      constructor
      · rw [hs1, hze]
      · intro hne; exact absurd hs1 hne
    · set indices :=
        collectIndices ((flattenItems (a :: rest)).map TOCItem.spineIndex)
        with hindices
      set sorted := isort (fun a b : Int => decide (a < b)) indices with hsorted
      have hre : computeSpineRanges (a :: rest) L
          = setEndItems (fun s => endLookup sorted (L : Int) s) (a :: rest) := by
        simp only [computeSpineRanges]
        rw [if_neg hind]
      rw [hre] at hx
      obtain ⟨y, hy, hxy⟩ :=
        mem_of_map_projHSE
          (flattenItems_setEnd (fun s => endLookup sorted (L : Int) s) (a :: rest)) hx
      have hx1 : x.spineIndex = y.spineIndex :=
        congrArg (fun p : Str × Int × Int => p.2.1) hxy
      have hx2 : x.spineEndIndex
          = if 0 ≤ y.spineIndex then endLookup sorted (L : Int) y.spineIndex
            else -1 :=
        congrArg (fun p : Str × Int × Int => p.2.2) hxy
      obtain ⟨hye, hys⟩ := hpre y hy
      rcases hys with hm1 | ⟨h0, hlt⟩
      · have hxe : x.spineEndIndex = -1 := by
          rw [hx2, hm1]; norm_num
        constructor
        · rw [hx1, hm1, hxe]
        · intro hne; exact absurd (hx1.trans hm1) hne
      · have hxe : x.spineEndIndex = endLookup sorted (L : Int) y.spineIndex := by
          rw [hx2, if_pos h0]
        have hmemi : y.spineIndex ∈ indices :=
          mem_collectIndices.mpr ⟨List.mem_map_of_mem TOCItem.spineIndex hy, h0⟩
        have hmems : y.spineIndex ∈ sorted :=
          ((isort_perm _ indices).mem_iff).mpr hmemi
        have H1 : ∀ a b : Int, (decide (a < b)) = true → a ≤ b := by
          intro a b h; simp at h; omega
        have H2 : ∀ a b : Int, (decide (a < b)) = false → b ≤ a := by
          intro a b h; simp at h; omega
        have H3 : ∀ a b c : Int, (decide (a < b)) = true → b ≤ c → a ≤ c := by
          intro a b c h1 h2; simp at h1; omega
        have hle : sorted.Pairwise (· ≤ ·) := isort_pairwise H1 H2 H3 indices
        have hnd : sorted.Nodup :=
          ((isort_perm _ indices).nodup_iff).mpr (collectIndices_nodup _)
        have hchain : sorted.Pairwise (· < ·) :=
          (hle.and hnd).imp (fun hab => lt_of_le_of_ne hab.1 hab.2)
        have hbound : ∀ z ∈ sorted, z < (L : Int) := by
          intro z hz
          have hzi : z ∈ indices := ((isort_perm _ indices).mem_iff).mp hz
          obtain ⟨hzf, hz0⟩ := mem_collectIndices.mp hzi
          obtain ⟨w, hw, hwz⟩ := List.mem_map.mp hzf
          obtain ⟨_, hws⟩ := hpre w hw
          rcases hws with h | ⟨_, hwlt⟩
          · omega
          · omega
        obtain ⟨hgt, hleL⟩ := endLookup_bounds hmems hchain hbound
        constructor
        · constructor
          · intro h; rw [hx1] at h; omega
          · intro h; rw [hxe] at h; omega
        · intro _
          rw [hx1, hxe]
          exact ⟨h0, hgt, hleL⟩

/--
C1, amended.  For every navigation entry produced by opening a book: in
the toc tree, spine-index equals `-1` iff spine-end-index equals `-1`,
and otherwise `0 ≤ spine-index < spine-end-index ≤ spine_len`.  In the
landmarks tree the claim fails: `parseTOC` assigns spine indices to the
landmarks but runs `computeSpineRanges` only on the toc, so a matched
landmarks entry keeps spine-end-index `-1`; what holds there is that
spine-end-index is always `-1` and spine-index is `-1` or a valid spine
position.
-/
theorem parseTOC_spine_ranges (isEpub3 : Bool)
    (nav : Option (List TOCItem × List TOCItem))
    (ncx : Option (List TOCItem)) (spineHrefs : List Str)
    (hnav : ∀ p, nav = some p → FreshForest p.1 ∧ FreshForest p.2)
    (hncx : ∀ l, ncx = some l → FreshForest l) :
    (∀ x ∈ flattenItems (parseTOCPipeline isEpub3 nav ncx spineHrefs).1,
      (x.spineIndex = -1 ↔ x.spineEndIndex = -1) ∧
      (x.spineIndex ≠ -1 →
        0 ≤ x.spineIndex ∧ x.spineIndex < x.spineEndIndex ∧
          x.spineEndIndex ≤ (spineHrefs.length : Int))) ∧
    (∀ x ∈ flattenItems (parseTOCPipeline isEpub3 nav ncx spineHrefs).2,
      x.spineEndIndex = -1 ∧
      (x.spineIndex = -1 ∨
        (0 ≤ x.spineIndex ∧ x.spineIndex < (spineHrefs.length : Int)))) := by
  have htoc : ∀ toc : List TOCItem, FreshForest toc →
      ∀ x ∈ flattenItems
        (computeSpineRanges (assignItems (buildSpineMap spineHrefs) toc)
          spineHrefs.length),
      (x.spineIndex = -1 ↔ x.spineEndIndex = -1) ∧
      (x.spineIndex ≠ -1 →
        0 ≤ x.spineIndex ∧ x.spineIndex < x.spineEndIndex ∧
          x.spineEndIndex ≤ (spineHrefs.length : Int)) := by
    intro toc hf
    exact computeSpineRanges_invariant spineHrefs.length _
      (assign_fresh_flat spineHrefs toc hf)
  cases isEpub3 with
  | true =>
    cases nav with
    | some p =>
      obtain ⟨toc, lm⟩ := p
      obtain ⟨hf1, hf2⟩ := hnav (toc, lm) rfl
      exact ⟨htoc toc hf1, assign_fresh_flat spineHrefs lm hf2⟩
    | none =>
      cases ncx with
      | some l =>
        exact ⟨htoc l (hncx l rfl), by simp [parseTOCPipeline, flattenItems]⟩
      | none =>
        exact ⟨by simp [parseTOCPipeline, flattenItems],
          by simp [parseTOCPipeline, flattenItems]⟩
  | false =>
    cases ncx with
    | some l =>
      exact ⟨htoc l (hncx l rfl), by simp [parseTOCPipeline, flattenItems]⟩
    | none =>
      exact ⟨by simp [parseTOCPipeline, flattenItems],
        by simp [parseTOCPipeline, flattenItems]⟩

/-- Witness for `parseTOC_spine_ranges`: a version-2 book with a one-item
spine and a one-entry NCX toc. -/
theorem parseTOC_spine_ranges_witness :
    (∀ x ∈ flattenItems (parseTOCPipeline false none
        (some [TOCItem.mk "Ch1".toList "OEBPS/ch1.xhtml".toList [] (-1) (-1)])
        ["OEBPS/ch1.xhtml".toList]).1,
      (x.spineIndex = -1 ↔ x.spineEndIndex = -1) ∧
      (x.spineIndex ≠ -1 →
        0 ≤ x.spineIndex ∧ x.spineIndex < x.spineEndIndex ∧
          x.spineEndIndex ≤ (["OEBPS/ch1.xhtml".toList].length : Int))) ∧
    (∀ x ∈ flattenItems (parseTOCPipeline false none
        (some [TOCItem.mk "Ch1".toList "OEBPS/ch1.xhtml".toList [] (-1) (-1)])
        ["OEBPS/ch1.xhtml".toList]).2,
      x.spineEndIndex = -1 ∧
      (x.spineIndex = -1 ∨
        (0 ≤ x.spineIndex ∧
          x.spineIndex < (["OEBPS/ch1.xhtml".toList].length : Int)))) :=
  parseTOC_spine_ranges false none
    (some [TOCItem.mk "Ch1".toList "OEBPS/ch1.xhtml".toList [] (-1) (-1)])
    ["OEBPS/ch1.xhtml".toList]
    (fun p h => absurd h (by simp))
    (fun l hl => by
      cases hl
      intro x hx
      simp only [flattenItems, flattenItem, List.append_nil, List.mem_singleton] at hx
      subst hx
      exact ⟨rfl, rfl⟩)

/--
C1, counterexample to the claim as stated: opening a version-3 book whose
nav document holds a landmarks entry pointing at the single spine item
gives that landmarks entry spine-index `0` but spine-end-index `-1` —
`parseTOC` runs `computeSpineRanges` only on the toc tree, so in the
landmarks tree spine-index `≥ 0` coexists with spine-end-index `-1`,
violating the claimed equivalence.
-/
theorem landmarks_range_counterexample :
    (parseTOCPipeline true
        (some ([TOCItem.mk "C".toList "ch1.xhtml".toList [] (-1) (-1)],
               [TOCItem.mk "L".toList "ch1.xhtml".toList [] (-1) (-1)]))
        none ["ch1.xhtml".toList]).2
      = [TOCItem.mk "L".toList "ch1.xhtml".toList [] 0 (-1)] ∧
    (TOCItem.mk "L".toList "ch1.xhtml".toList [] 0 (-1)).spineIndex = 0 ∧
    (TOCItem.mk "L".toList "ch1.xhtml".toList [] 0 (-1)).spineEndIndex = -1 ∧
    ¬(((0 : Int) = -1) ↔ ((-1 : Int) = -1)) := by
  refine ⟨?_, rfl, rfl, by omega⟩
  rfl

/-! ### Claim C6: DRM detection -/

/-- When every encrypted-data entry is font obfuscation, the loop succeeds
and the flag records whether any entry was seen. -/
theorem checkDRMLoop_all_obfuscation {eds : List EncryptedData}
    (h : ∀ ed ∈ eds, fontObfuscationAlgorithms ed.algorithm = true) :
    ∀ b, checkDRMLoop b eds = .ok (b || decide (eds ≠ [])) := by
  induction eds with
  | nil => intro b; simp [checkDRMLoop]
  | cons ed rest ih =>
    intro b
    have hed : fontObfuscationAlgorithms ed.algorithm = true :=
      h ed (List.mem_cons_self ed rest)
    rw [checkDRMLoop, if_pos hed, ih (fun e he => h e (List.mem_cons_of_mem ed he))]
    simp

/-- Any non-obfuscation encrypted-data entry makes the loop conclude
DRM protection. -/
theorem checkDRMLoop_nonobfuscation {eds : List EncryptedData}
    (h : ∃ ed ∈ eds, fontObfuscationAlgorithms ed.algorithm = false) :
    ∀ b, checkDRMLoop b eds = .drmProtected := by
  induction eds with
  | nil => obtain ⟨ed, hm, _⟩ := h; cases hm
  | cons ed rest ih =>
    intro b
    obtain ⟨e, he, hobf⟩ := h
    rcases List.mem_cons.mp he with rfl | he'
    · rw [checkDRMLoop, hobf]
      simp only [Bool.false_eq_true, if_false, ite_self]
    · by_cases hed : fontObfuscationAlgorithms ed.algorithm = true
      · rw [checkDRMLoop, if_pos hed]
        exact ih ⟨e, he', hobf⟩ true
      · rw [checkDRMLoop, if_neg hed]
        simp only [ite_self]

/--
C6, confirmed.  `checkDRM` concludes DRM protection immediately when a
`META-INF/sinf.xml` entry exists (case-insensitive); otherwise, with no
`META-INF/encryption.xml` it succeeds with no font obfuscation; with an
encryption descriptor it concludes DRM protection when the descriptor
fails to parse or when any encrypted-data entry's algorithm is not a
known font-obfuscation URI, and succeeds otherwise, reporting font
obfuscation exactly when at least one (obfuscation) entry was seen.
-/
theorem checkDRM_spec (names : List Str) (parseEnc : Option (List EncryptedData)) :
    ((findNameInsensitive names sinfFilePath).isSome = true →
      checkDRM names parseEnc = .drmProtected) ∧
    ((findNameInsensitive names sinfFilePath).isSome = false →
      ((findNameInsensitive names encryptionFilePath).isSome = false →
        checkDRM names parseEnc = .ok false) ∧
      ((findNameInsensitive names encryptionFilePath).isSome = true →
        (parseEnc = none → checkDRM names parseEnc = .drmProtected) ∧
        (∀ eds, parseEnc = some eds →
          ((∀ ed ∈ eds, fontObfuscationAlgorithms ed.algorithm = true) →
            checkDRM names parseEnc = .ok (decide (eds ≠ []))) ∧
          ((∃ ed ∈ eds, fontObfuscationAlgorithms ed.algorithm = false) →
            checkDRM names parseEnc = .drmProtected)))) := by
  constructor
  · intro hs
    unfold checkDRM
    rw [if_pos hs]
  · intro hs
    constructor
    · intro he
      unfold checkDRM
      rw [hs, he]
      simp
    · intro he
      constructor
      · intro hp
        subst hp
        unfold checkDRM
        rw [hs]
        simp only [Bool.false_eq_true, if_false]
        rw [if_pos he]
      · intro eds hp
        subst hp
        constructor
        · intro hall
          unfold checkDRM
          rw [hs]
          simp only [Bool.false_eq_true, if_false]
          rw [if_pos he]
          exact checkDRMLoop_all_obfuscation hall false
        · intro hex
          unfold checkDRM
          rw [hs]
          simp only [Bool.false_eq_true, if_false]
          rw [if_pos he]
          exact checkDRMLoop_nonobfuscation hex false

/-- Witness for `checkDRM_spec`: an archive with only an encryption
descriptor holding one font-obfuscation entry (the repository's
`TestOpen_FontObfuscationWarning` configuration). -/
theorem checkDRM_spec_witness :
    checkDRM ["mimetype".toList, "META-INF/encryption.xml".toList]
        (some [⟨"http://www.idpf.org/2008/embedding".toList, [] ⟩])
      = .ok true := by
  have h := checkDRM_spec ["mimetype".toList, "META-INF/encryption.xml".toList]
    (some [⟨"http://www.idpf.org/2008/embedding".toList, []⟩])
  have h2 := ((h.2 (by decide)).2 (by decide)).2
    [⟨"http://www.idpf.org/2008/embedding".toList, []⟩] rfl
  have h3 := h2.1 (by decide)
  simpa using h3

/-! ### Claim C7: size-limited entry reads -/

/--
C7, confirmed.  For an entry whose name passes the path-safety check:
a declared decompressed size above the limit is refused; otherwise at
most `limit + 1` bytes are read from the decompression stream, the read
is refused when the actual output reaches `limit + 1` bytes, and the full
decompressed bytes are returned when the output fits the limit.
-/
theorem readZipFileWithLimit_size_bound (f : ZipEntry) (limit : Nat)
    (hsafe : isSafePath f.name = true) :
    (f.declaredSize > limit →
      readZipFileWithLimit f limit = .error .tooLargeDeclared) ∧
    (f.declaredSize ≤ limit →
      (f.content.take (limit + 1)).length ≤ limit + 1 ∧
      (limit + 1 ≤ f.content.length →
        readZipFileWithLimit f limit = .error .tooLargeActual) ∧
      (f.content.length ≤ limit →
        readZipFileWithLimit f limit = .ok f.content)) := by
  have hns : ¬ isSafePath f.name = false := by rw [hsafe]; simp
  constructor
  · intro hd
    rw [readZipFileWithLimit, if_neg hns, if_pos hd]
  · intro hd
    refine ⟨by simp [List.length_take], ?_, ?_⟩
    · intro hact
      have hlen : (f.content.take (limit + 1)).length = limit + 1 := by
        simp [List.length_take]
        omega
      rw [readZipFileWithLimit, if_neg hns, if_neg (by omega : ¬ f.declaredSize > limit)]
      simp only [hlen]
      rw [if_pos (by omega)]
    · intro hact
      have htake : f.content.take (limit + 1) = f.content :=
        List.take_of_length_le (by omega)
      rw [readZipFileWithLimit, if_neg hns, if_neg (by omega : ¬ f.declaredSize > limit)]
      simp only [htake]
      rw [if_neg (by omega)]

/-- Witness for `readZipFileWithLimit_size_bound`: the repository's
`TestReadZipFile_ZipBomb` configuration scaled down — a 6-byte entry read
with limit 4 is refused, and the same entry with limit 6 is returned in
full. -/
theorem readZipFileWithLimit_size_bound_witness :
    readZipFileWithLimit ⟨"big.txt".toList, 6, "AAAAAA".toList⟩ 6
      = .ok "AAAAAA".toList ∧
    readZipFileWithLimit ⟨"big.txt".toList, 4, "AAAAAA".toList⟩ 4
      = .error .tooLargeActual ∧
    readZipFileWithLimit ⟨"big.txt".toList, 9, "AAAAAA".toList⟩ 4
      = .error .tooLargeDeclared :=
  ⟨((readZipFileWithLimit_size_bound ⟨"big.txt".toList, 6, "AAAAAA".toList⟩ 6
      (by decide)).2 (by decide)).2.2 (by decide),
   ((readZipFileWithLimit_size_bound ⟨"big.txt".toList, 4, "AAAAAA".toList⟩ 4
      (by decide)).2 (by decide)).2.1 (by decide),
   (readZipFileWithLimit_size_bound ⟨"big.txt".toList, 9, "AAAAAA".toList⟩ 4
      (by decide)).1 (by decide)⟩

/-! ### Claim C4: the cover-strategy cascade -/

/-- `Cover` is decided by the first strategy to select a manifest item. -/
theorem cover_eq_firstSelected (b : CoverBook) :
    cover b = match firstSelectedCover b with
      | some item => loadCoverImage b item
      | none => .error .noCover := by
  unfold cover firstSelectedCover
  cases coverFromManifestProperties b with
  | some it => rfl
  | none =>
    simp only [Option.none_orElse]
    cases coverFromMetaCover b with
    | some it => rfl
    | none =>
      simp only [Option.none_orElse]
      cases coverFromGuide b with
      | some it => rfl
      | none =>
        simp only [Option.none_orElse]
        cases coverFromManifestHeuristic b with
        | some it => rfl
        | none =>
          simp only [Option.none_orElse]
          cases coverFromFirstSpine b with
          | some it => rfl
          | none => rfl

/--
C4, amended.  `Cover` tries the five strategies in priority order, but
the FIRST strategy to select a manifest item decides the outcome: its
`loadCoverImage` result — including any read error for an unreachable
entry — is returned directly, with no fallthrough to later strategies.
`Cover` fails with `NoCover` exactly when no strategy selects an item.
-/
theorem cover_first_selection_decides (b : CoverBook) :
    (firstSelectedCover b = none → cover b = .error .noCover) ∧
    (∀ item, firstSelectedCover b = some item →
      cover b = loadCoverImage b item) :=
  ⟨fun h => by rw [cover_eq_firstSelected, h],
   fun item h => by rw [cover_eq_firstSelected, h]⟩

/-- Witness for `cover_first_selection_decides`: a book whose strategy-1
cover is readable. -/
theorem cover_first_selection_decides_witness :
    firstSelectedCover coverWitnessBook
      = some ⟨"cimg".toList, "cover.png".toList, "image/png".toList,
          "cover-image".toList⟩ ∧
    cover coverWitnessBook
      = loadCoverImage coverWitnessBook
          ⟨"cimg".toList, "cover.png".toList, "image/png".toList,
            "cover-image".toList⟩ :=
  ⟨by decide,
   (cover_first_selection_decides coverWitnessBook).2 _ (by decide)⟩

/--
C4, counterexample to the claim as stated: in `coverCounterBook`,
strategy 1 selects an item whose bytes cannot be read
(`OEBPS/missing.png` is not in the archive), and the claim demands a
fallthrough to strategy 4, which would succeed with the readable
`cover2.png`; instead `Cover` returns the read error directly — neither
the later strategy's image nor `NoCover`.
-/
theorem cover_no_fallthrough_counterexample :
    cover coverCounterBook = .error (.readErr .fileNotFound) ∧
    coverFromManifestHeuristic coverCounterBook
      = some ⟨"c2".toList, "cover2.png".toList, "image/png".toList, []⟩ ∧
    loadCoverImage coverCounterBook
        ⟨"c2".toList, "cover2.png".toList, "image/png".toList, []⟩
      = .ok ⟨"OEBPS/cover2.png".toList, "image/png".toList, "X".toList⟩ :=
  ⟨rfl, by decide, rfl⟩

/-! ### Claim C8: display-seq ordering of titles -/

/-- Characterization of the `sort.SliceStable` comparison used by
`extractTitles`. -/
theorem titleLt_iff (a b : TitleEntry) :
    titleLt a b = true ↔
      ((a.seq = 0 ∧ b.seq = 0 ∧ a.index < b.index) ∨
       (a.seq ≠ 0 ∧ b.seq = 0) ∨
       (a.seq ≠ 0 ∧ b.seq ≠ 0 ∧ a.seq < b.seq)) := by
  unfold titleLt
  split_ifs with h1 h2 h3 <;> simp <;> omega

theorem titleR0_compat_lt : ∀ a b, titleLt a b = true → titleR0 a b := by
  intro a b h
  rw [titleLt_iff] at h
  unfold titleR0
  omega

theorem titleR0_compat_ge : ∀ a b, titleLt a b = false → titleR0 b a := by
  intro a b h
  have h' : ¬ titleLt a b = true := by simp [h]
  rw [titleLt_iff] at h'
  unfold titleR0
  omega

theorem titleR0_compat_trans :
    ∀ a b c, titleLt a b = true → titleR0 b c → titleR0 a c := by
  intro a b c h1 h2
  rw [titleLt_iff] at h1
  unfold titleR0 at *
  omega

/-- Inserting an element whose original index is above everything in a
list that is pairwise ordered by `titleR0` and `titleS` keeps the
stability order `titleS`. -/
theorem insertSorted_titleS (x : TitleEntry) :
    ∀ l : List TitleEntry, l.Pairwise titleR0 → l.Pairwise titleS →
      (∀ y ∈ l, y.index < x.index) →
      (insertSorted titleLt x l).Pairwise titleS
  | [] => fun _ _ _ => by simp [insertSorted]
  | y :: ys => fun hR hS hx => by
    rw [List.pairwise_cons] at hR hS
    unfold insertSorted
    by_cases hlt : titleLt x y = true
    · rw [if_pos hlt, List.pairwise_cons]
      refine ⟨?_, List.pairwise_cons.mpr hS⟩
      intro z hz
      rcases List.mem_cons.mp hz with rfl | hz'
      · exact Or.inr hlt
      · have hR0 := hR.1 z hz'
        rw [titleLt_iff] at hlt
        unfold titleS titleR0 at *
        rw [titleLt_iff]
        omega
    · rw [if_neg hlt, List.pairwise_cons]
      refine ⟨?_, insertSorted_titleS x ys hR.2 hS.2
        (fun y' hy' => hx y' (List.mem_cons_of_mem y hy'))⟩
      intro z hz
      rcases mem_insertSorted.mp hz with rfl | hz'
      · exact Or.inl (hx y (List.mem_cons_self y ys))
      · exact hS.1 z hz'

/-- The stable insertion sort of entries listed in increasing original
index is pairwise ordered by both `titleR0` and `titleS`. -/
theorem isort_title_invariant :
    ∀ (l acc : List TitleEntry), acc.Pairwise titleR0 → acc.Pairwise titleS →
      (∀ y ∈ acc, ∀ x ∈ l, y.index < x.index) →
      l.Pairwise (fun a b => a.index < b.index) →
      (l.foldl (fun acc x => insertSorted titleLt x acc) acc).Pairwise titleR0 ∧
      (l.foldl (fun acc x => insertSorted titleLt x acc) acc).Pairwise titleS
  | [], acc => fun hR hS _ _ => ⟨hR, hS⟩
  | x :: xs, acc => fun hR hS hidx hl => by
    rw [List.foldl_cons]
    rw [List.pairwise_cons] at hl
    have hxacc : ∀ y ∈ acc, y.index < x.index :=
      fun y hy => hidx y hy x (List.mem_cons_self x xs)
    have hR' : (insertSorted titleLt x acc).Pairwise titleR0 :=
      insertSorted_pairwise titleR0_compat_lt titleR0_compat_ge
        titleR0_compat_trans x acc hR
    have hS' := insertSorted_titleS x acc hR hS hxacc
    refine isort_title_invariant xs _ hR' hS' ?_ hl.2
    intro y hy z hz
    rcases mem_insertSorted.mp hy with rfl | hy'
    · exact hl.1 z hz
    · exact hidx y hy' z (List.mem_cons_of_mem x hz)

/-- Collected title entries carry their original positions, in strictly
increasing order. -/
theorem collectTitles_indexes (rm : Lookup (List OpfMeta)) :
    ∀ (t : List OpfDCElement) (i : Nat),
      (∀ e ∈ (collectTitles i t rm).1, i ≤ e.index) ∧
      (collectTitles i t rm).1.Pairwise (fun a b => a.index < b.index)
  | [], i => by simp [collectTitles]
  | t :: rest, i => by
    obtain ⟨hge, hpw⟩ := collectTitles_indexes rm rest (i + 1)
    by_cases hv : trimSpace t.value = []
    · unfold collectTitles
      rw [if_pos hv]
      exact ⟨fun e he => le_trans (by omega) (hge e he), hpw⟩
    · unfold collectTitles
      rw [if_neg hv]
      constructor
      · intro e he
        rcases List.mem_cons.mp he with rfl | he'
        · exact le_refl i
        · exact le_trans (by omega) (hge e he')
      · rw [List.pairwise_cons]
        refine ⟨fun e he => ?_, hpw⟩
        have := hge e he
        show i < e.index
        omega

/--
C8, confirmed.  `extractTitles` collects each title with non-empty
trimmed text together with its parsed `display-seq` (0 when absent) and
its original index; without any real sequence the document order is
kept; with one, the output is a stable reordering of the collected
entries in which (a) no unsequenced title precedes a sequenced one,
(b) sequenced titles are ascending by sequence, and (c) equal-sequence
titles keep their original relative order.
-/
theorem extractTitles_display_seq (titles : List OpfDCElement)
    (rm : Lookup (List OpfMeta)) :
    ((collectTitles 0 titles rm).2 = false →
      extractTitles titles rm
        = (collectTitles 0 titles rm).1.map (·.value)) ∧
    ((collectTitles 0 titles rm).2 = true →
      ∃ l : List TitleEntry, l.Perm (collectTitles 0 titles rm).1 ∧
        extractTitles titles rm = l.map (·.value) ∧
        l.Pairwise (fun a b =>
          (¬ (a.seq = 0 ∧ 0 < b.seq)) ∧
          (0 < a.seq → 0 < b.seq → a.seq ≤ b.seq) ∧
          (a.seq = b.seq → a.index < b.index))) := by
  constructor
  · intro h
    by_cases ht : titles = []
    · subst ht
      simp [extractTitles, collectTitles]
    · unfold extractTitles
      rw [if_neg ht, if_neg (by rw [h]; simp)]
  · intro h
    by_cases ht : titles = []
    · subst ht
      rw [show collectTitles 0 ([] : List OpfDCElement) rm = ([], false) from rfl] at h
      simp at h
    · refine ⟨isort titleLt (collectTitles 0 titles rm).1,
        isort_perm _ _, ?_, ?_⟩
      · unfold extractTitles
        rw [if_neg ht, if_pos h]
      · have hidx := (collectTitles_indexes rm titles 0).2
        obtain ⟨hR, hS⟩ := isort_title_invariant
          (collectTitles 0 titles rm).1 [] List.Pairwise.nil List.Pairwise.nil
          (by intro y hy; cases hy) hidx
        have hRS : (isort titleLt (collectTitles 0 titles rm).1).Pairwise
            (fun a b => titleR0 a b ∧ titleS a b) := by
          unfold isort
          exact hR.and hS
        refine hRS.imp ?_
        intro a b hab
        obtain ⟨hr, hs⟩ := hab
        unfold titleR0 at hr
        unfold titleS at hs
        rcases hs with hs | hs
        · refine ⟨by omega, by omega, by omega⟩
        · rw [titleLt_iff] at hs
          refine ⟨by omega, by omega, by omega⟩

/-- Witness for `extractTitles_display_seq`: the specification's
version-3 display-seq scenario — titles `t1`, `t2` with `display-seq`
2 and 1. -/
theorem extractTitles_display_seq_witness :
    extractTitles
        [⟨"Subtitle".toList, "t1".toList, [], [], []⟩,
         ⟨"Main Title".toList, "t2".toList, [], [], []⟩]
        (buildRefinesMap
          [⟨[], [], "display-seq".toList, "#t1".toList, [], "2".toList⟩,
           ⟨[], [], "display-seq".toList, "#t2".toList, [], "1".toList⟩])
      = ["Main Title".toList, "Subtitle".toList] ∧
    (∃ l : List TitleEntry,
      l.Perm (collectTitles 0
        [⟨"Subtitle".toList, "t1".toList, [], [], []⟩,
         ⟨"Main Title".toList, "t2".toList, [], [], []⟩]
        (buildRefinesMap
          [⟨[], [], "display-seq".toList, "#t1".toList, [], "2".toList⟩,
           ⟨[], [], "display-seq".toList, "#t2".toList, [], "1".toList⟩])).1 ∧
      extractTitles
        [⟨"Subtitle".toList, "t1".toList, [], [], []⟩,
         ⟨"Main Title".toList, "t2".toList, [], [], []⟩]
        (buildRefinesMap
          [⟨[], [], "display-seq".toList, "#t1".toList, [], "2".toList⟩,
           ⟨[], [], "display-seq".toList, "#t2".toList, [], "1".toList⟩])
        = l.map (·.value) ∧
      l.Pairwise (fun a b =>
        (¬ (a.seq = 0 ∧ 0 < b.seq)) ∧
        (0 < a.seq → 0 < b.seq → a.seq ≤ b.seq) ∧
        (a.seq = b.seq → a.index < b.index))) :=
  ⟨by decide,
   (extractTitles_display_seq
      [⟨"Subtitle".toList, "t1".toList, [], [], []⟩,
       ⟨"Main Title".toList, "t2".toList, [], [], []⟩]
      (buildRefinesMap
        [⟨[], [], "display-seq".toList, "#t1".toList, [], "2".toList⟩,
         ⟨[], [], "display-seq".toList, "#t2".toList, [], "1".toList⟩])).2
     (by decide)⟩

-- Sanity check: the repository's `TestExtractMetadata_V3TitleOrdering`
-- vector — seqs 3, 1, 2 and one unsequenced title.
theorem extractTitles_ordering_vector :
    extractTitles
        [⟨"Third".toList, "t1".toList, [], [], []⟩,
         ⟨"First".toList, "t2".toList, [], [], []⟩,
         ⟨"Second".toList, "t3".toList, [], [], []⟩,
         ⟨"No Seq".toList, [], [], [], []⟩]
        (buildRefinesMap
          [⟨[], [], "display-seq".toList, "#t1".toList, [], "3".toList⟩,
           ⟨[], [], "display-seq".toList, "#t2".toList, [], "1".toList⟩,
           ⟨[], [], "display-seq".toList, "#t3".toList, [], "2".toList⟩])
      = ["First".toList, "Second".toList, "Third".toList, "No Seq".toList] := by
  decide

/-! ### Claim C10: Gutenberg detection falls back to raw bytes -/

/--
C10, confirmed.  When plain-text extraction of a chapter's raw XHTML
fails, `isGutenbergLicense` searches the lowercased raw bytes, so a
Gutenberg pattern anywhere in the markup (tags, attributes, comments
included) marks the chapter as a license page, and `ContentChapters`
excludes every chapter whose raw bytes match.
-/
theorem gutenberg_fallback (b : ChapterBook) (ch : Chapter) (raw : Str)
    (hread : readFileArchive b.archive ch.href = .ok raw)
    (hfail : b.ext raw = none)
    (hpat : gutenbergTextMatch (lowerStr raw) = true) :
    isGutenbergLicense b.ext raw = true ∧
    ∀ c ∈ contentChapters b, c.href ≠ ch.href := by
  have hlic : isGutenbergLicense b.ext raw = true := by
    unfold isGutenbergLicense
    rw [hfail]
    exact hpat
  refine ⟨hlic, ?_⟩
  intro c hc hhref
  rw [contentChapters, List.mem_filter] at hc
  obtain ⟨hcd, hcl⟩ := hc
  rw [detectLicenses, List.mem_map] at hcd
  obtain ⟨ch0, _, hch0⟩ := hcd
  have hhref0 : ch0.href = ch.href := by
    rw [← hhref, ← hch0]
    cases hr : readFileArchive b.archive ch0.href <;> simp [hr]
  rw [hhref0, hread] at hch0
  rw [← hch0] at hcl
  simp [hlic] at hcl

/-- Witness for `gutenberg_fallback`: a license chapter whose Gutenberg
marker sits inside an HTML comment, with a failing text extraction. -/
theorem gutenberg_fallback_witness :
    isGutenbergLicense (fun _ => none)
        "<!-- PROJECT GUTENBERG LICENSE -->".toList = true ∧
    ∀ c ∈ contentChapters
        ⟨[⟨[], "lic.xhtml".toList, "lic".toList, true, false⟩],
         [⟨"lic.xhtml".toList, 34,
            "<!-- PROJECT GUTENBERG LICENSE -->".toList⟩],
         fun _ => none⟩,
      c.href ≠ "lic.xhtml".toList :=
  gutenberg_fallback
    ⟨[⟨[], "lic.xhtml".toList, "lic".toList, true, false⟩],
     [⟨"lic.xhtml".toList, 34, "<!-- PROJECT GUTENBERG LICENSE -->".toList⟩],
     fun _ => none⟩
    ⟨[], "lic.xhtml".toList, "lic".toList, true, false⟩
    "<!-- PROJECT GUTENBERG LICENSE -->".toList
    rfl rfl (by decide)

/-! ### Claim C9: entity preprocessing preserves XML entities and is idempotent -/

theorem preGo_nil (f : Nat) : preprocessGo f [] = [] := by
  cases f <;> rfl

theorem preGo_succ_cons (f : Nat) (c : Char) (rest : Str) :
    preprocessGo (f + 1) (c :: rest) =
      if c = '&' then
        if (rest.takeWhile (· ≠ ';')).length < rest.length ∧
            (entityNum (rest.takeWhile (· ≠ ';'))).isSome = true then
          (entityNum (rest.takeWhile (· ≠ ';'))).getD [] ++
            preprocessGo f (rest.drop ((rest.takeWhile (· ≠ ';')).length + 1))
        else c :: preprocessGo f rest
      else c :: preprocessGo f rest := rfl

theorem preGo_irrel : ∀ f₁ f₂ (s : Str), s.length ≤ f₁ → s.length ≤ f₂ →
    preprocessGo f₁ s = preprocessGo f₂ s := by
  intro f₁
  induction f₁ with
  | zero =>
    intro f₂ s h₁ _
    have hs : s = [] := List.length_eq_zero.mp (Nat.le_zero.mp h₁)
    subst hs
    rw [preGo_nil, preGo_nil]
  | succ f ih =>
    intro f₂ s h₁ h₂
    cases s with
    | nil => rw [preGo_nil, preGo_nil]
    | cons c rest =>
      cases f₂ with
      | zero =>
        rw [List.length_cons] at h₂
        exact absurd h₂ (by omega)
      | succ g =>
        rw [List.length_cons] at h₁ h₂
        rw [preGo_succ_cons, preGo_succ_cons]
        by_cases hc : c = '&'
        · rw [if_pos hc, if_pos hc]
          by_cases hhit : (rest.takeWhile (· ≠ ';')).length < rest.length ∧
              (entityNum (rest.takeWhile (· ≠ ';'))).isSome = true
          · rw [if_pos hhit, if_pos hhit]
            have hd : (rest.drop ((rest.takeWhile (· ≠ ';')).length + 1)).length ≤
                rest.length := by
              rw [List.length_drop]; omega
            exact congrArg _ (ih g _ (by omega) (by omega))
          · rw [if_neg hhit, if_neg hhit]
            exact congrArg _ (ih g rest (by omega) (by omega))
        · rw [if_neg hc, if_neg hc]
          exact congrArg _ (ih g rest (by omega) (by omega))

theorem pre_cons_ne (c : Char) (t : Str) (h : ¬ c = '&') :
    preprocessHTMLEntities (c :: t) = c :: preprocessHTMLEntities t := by
  unfold preprocessHTMLEntities
  rw [List.length_cons, preGo_succ_cons, if_neg h]

theorem pre_amp_miss (t : Str)
    (h : ¬ ((t.takeWhile (· ≠ ';')).length < t.length ∧
        (entityNum (t.takeWhile (· ≠ ';'))).isSome = true)) :
    preprocessHTMLEntities ('&' :: t) = '&' :: preprocessHTMLEntities t := by
  unfold preprocessHTMLEntities
  rw [List.length_cons, preGo_succ_cons, if_pos rfl, if_neg h]

theorem pre_amp_hit (t v : Str)
    (hlt : (t.takeWhile (· ≠ ';')).length < t.length)
    (hv : entityNum (t.takeWhile (· ≠ ';')) = some v) :
    preprocessHTMLEntities ('&' :: t) =
      v ++ preprocessHTMLEntities (t.drop ((t.takeWhile (· ≠ ';')).length + 1)) := by
  unfold preprocessHTMLEntities
  rw [List.length_cons, preGo_succ_cons, if_pos rfl,
      if_pos ⟨hlt, by rw [hv]; rfl⟩, hv, Option.getD_some]
  refine congrArg (v ++ ·) ?_
  apply preGo_irrel
  · rw [List.length_drop]; omega
  · exact Nat.le_refl _

theorem pre_append_noamp (xs t : Str) (h : ∀ c ∈ xs, ¬ c = '&') :
    preprocessHTMLEntities (xs ++ t) = xs ++ preprocessHTMLEntities t := by
  induction xs with
  | nil => rfl
  | cons c xs ih =>
    rw [List.cons_append, pre_cons_ne c _ (h c (List.mem_cons_self c xs)),
        ih (fun d hd => h d (List.mem_cons_of_mem c hd)), List.cons_append]

theorem takeWhile_all_eq {p : Char → Bool} {l : Str} (h : ∀ x ∈ l, p x = true) :
    l.takeWhile p = l := by
  induction l with
  | nil => rfl
  | cons c l ih =>
    rw [List.takeWhile_cons, if_pos (h c (List.mem_cons_self c l)),
        ih (fun x hx => h x (List.mem_cons_of_mem c hx))]

theorem takeWhile_append_all {p : Char → Bool} {xs : Str} (t : Str)
    (h : ∀ x ∈ xs, p x = true) :
    (xs ++ t).takeWhile p = xs ++ t.takeWhile p := by
  induction xs with
  | nil => rfl
  | cons c xs ih =>
    rw [List.cons_append, List.takeWhile_cons, if_pos (h c (List.mem_cons_self c xs)),
        ih (fun x hx => h x (List.mem_cons_of_mem c hx)), List.cons_append]

theorem mem_takeWhile_mem {p : Char → Bool} {x : Char} :
    ∀ {l : Str}, x ∈ l.takeWhile p → x ∈ l := by
  intro l
  induction l with
  | nil => intro h; exact h
  | cons c l ih =>
    intro h
    rw [List.takeWhile_cons] at h
    by_cases hc : p c = true
    · rw [if_pos hc] at h
      cases List.mem_cons.mp h with
      | inl h => exact List.mem_cons.mpr (Or.inl h)
      | inr h => exact List.mem_cons.mpr (Or.inr (ih h))
    · rw [if_neg hc] at h
      cases h

theorem pre_no_semi (s : Str) (h : ';' ∉ s) : preprocessHTMLEntities s = s := by
  induction s with
  | nil => rfl
  | cons c rest ih =>
    have hrest : ';' ∉ rest := fun hx => h (List.mem_cons_of_mem c hx)
    have hih := ih hrest
    by_cases hc : c = '&'
    · subst hc
      rw [pre_amp_miss rest ?_, hih]
      rintro ⟨hlt, -⟩
      have hall : ∀ x ∈ rest, ((· ≠ ';') : Char → Bool) x = true :=
        fun x hx => decide_eq_true (fun he => hrest (he ▸ hx))
      rw [takeWhile_all_eq hall] at hlt
      exact absurd hlt (by omega)
    · rw [pre_cons_ne c rest hc, hih]

theorem split_first (a : Char) : ∀ (l : Str), a ∈ l →
    ∃ u, l = l.takeWhile (· ≠ a) ++ a :: u := by
  intro l hl
  induction l with
  | nil => cases hl
  | cons c rest ih =>
    by_cases hc : c = a
    · subst hc
      exact ⟨rest, by rw [List.takeWhile_cons, if_neg (by simp), List.nil_append]⟩
    · have hr : a ∈ rest := by
        cases List.mem_cons.mp hl with
        | inl h => exact absurd h.symm hc
        | inr h => exact h
      obtain ⟨u, hu⟩ := ih hr
      refine ⟨u, ?_⟩
      rw [List.takeWhile_cons, if_pos (decide_eq_true hc), List.cons_append]
      exact congrArg (c :: ·) hu

theorem entityTable_keys_alpha : entityTable.all (fun p => keyAlpha p.1) = true := by
  decide

theorem entityTable_vals_shape : entityTable.all (fun p => valShape p.2) = true := by
  decide

theorem entityNum_some_mem {cand v : Str} (h : entityNum cand = some v) :
    ∃ p ∈ entityTable, p.1 = lowerStr cand ∧ p.2 = v := by
  unfold entityNum at h
  obtain ⟨p, hp, hv⟩ := Option.map_eq_some'.mp h
  refine ⟨p, List.mem_of_find?_eq_some hp, ?_, hv⟩
  have := List.find?_some hp
  simpa using this

theorem entityNum_none_of_bad {cand : Str} (c : Char) (hc : c ∈ cand)
    (hlow : lowerChar c = c) (hbad : ¬ ('a' ≤ c ∧ c ≤ 'z')) :
    entityNum cand = none := by
  cases hopt : entityNum cand with
  | none => rfl
  | some v =>
    obtain ⟨p, hp, hkey, -⟩ := entityNum_some_mem hopt
    have hmem : c ∈ p.1 := by
      rw [hkey]
      exact hlow ▸ List.mem_map_of_mem lowerChar hc
    have hka : keyAlpha p.1 = true := List.all_eq_true.mp entityTable_keys_alpha p hp
    unfold keyAlpha at hka
    have := List.all_eq_true.mp hka c hmem
    simp only [Bool.and_eq_true, decide_eq_true_eq] at this
    exact absurd this hbad

theorem entityNum_amp {cand : Str} (h : '&' ∈ cand) : entityNum cand = none :=
  entityNum_none_of_bad '&' h (by decide) (by decide)

theorem entityNum_hash (l : Str) : entityNum ('#' :: l) = none :=
  entityNum_none_of_bad '#' (List.mem_cons_self '#' l) (by decide) (by decide)

theorem valShape_elim {v : Str} (h : valShape v = true) :
    ∃ z, v = '&' :: '#' :: z ∧ ∀ c ∈ z, ¬ c = '&' := by
  cases v with
  | nil => exact Bool.noConfusion h
  | cons a w =>
    cases w with
    | nil => exact Bool.noConfusion h
    | cons b z =>
      have h' : a = '&' ∧ b = '#' ∧ ∀ c ∈ z, ¬ c = '&' := by
        simpa [valShape, List.all_eq_true, and_assoc] using h
      obtain ⟨ha, hb, hz⟩ := h'
      exact ⟨z, by rw [ha, hb], hz⟩

theorem pre_numref_append (z X : Str) (hz : ∀ c ∈ z, ¬ c = '&') :
    preprocessHTMLEntities (('&' :: '#' :: z) ++ X) =
      ('&' :: '#' :: z) ++ preprocessHTMLEntities X := by
  have hm : ¬ ((('#' :: (z ++ X)).takeWhile (· ≠ ';')).length < ('#' :: (z ++ X)).length ∧
      (entityNum (('#' :: (z ++ X)).takeWhile (· ≠ ';'))).isSome = true) := by
    rintro ⟨-, hsome⟩
    rw [List.takeWhile_cons, if_pos (by decide), entityNum_hash] at hsome
    exact Bool.noConfusion hsome
  have hstep : ('&' :: '#' :: z) ++ X = '&' :: ('#' :: (z ++ X)) := by simp
  rw [hstep, pre_amp_miss _ hm]
  have hnoamp : ∀ c ∈ '#' :: z, ¬ c = '&' := by
    intro c hc
    cases List.mem_cons.mp hc with
    | inl h => intro he; rw [h] at he; exact (by decide : ¬ ('#' : Char) = '&') he
    | inr h => exact hz c h
  have : ('#' :: (z ++ X)) = ('#' :: z) ++ X := by simp
  rw [this, pre_append_noamp ('#' :: z) X hnoamp]
  simp

theorem entityMiss_preserved (t : Str)
    (h : ¬ ((t.takeWhile (· ≠ ';')).length < t.length ∧
        (entityNum (t.takeWhile (· ≠ ';'))).isSome = true)) :
    ¬ ((((preprocessHTMLEntities t).takeWhile (· ≠ ';')).length <
          (preprocessHTMLEntities t).length) ∧
        (entityNum ((preprocessHTMLEntities t).takeWhile (· ≠ ';'))).isSome = true) := by
  by_cases hsem : ';' ∈ t
  · have hseg_all : ∀ x ∈ t.takeWhile (· ≠ ';'), ¬ x = ';' := by
      intro x hx
      simpa using List.mem_takeWhile_imp hx
    have hseg_dec : ∀ x ∈ t.takeWhile (· ≠ ';'), ((· ≠ ';') : Char → Bool) x = true :=
      fun x hx => decide_eq_true (hseg_all x hx)
    obtain ⟨u, hu⟩ := split_first ';' t hsem
    have hlt : (t.takeWhile (· ≠ ';')).length < t.length := by
      conv_rhs => rw [hu]
      rw [List.length_append, List.length_cons]
      omega
    have hnone : entityNum (t.takeWhile (· ≠ ';')) = none := by
      cases hopt : entityNum (t.takeWhile (· ≠ ';')) with
      | none => rfl
      | some v => exact absurd ⟨hlt, by rw [hopt]; rfl⟩ h
    by_cases hamp : '&' ∈ t.takeWhile (· ≠ ';')
    · -- the candidate itself holds a '&'; after one pass a '&' is still in front
      -- of the first ';', so the second pass cannot find a table name either
      obtain ⟨ys, hxs⟩ := split_first '&' (t.takeWhile (· ≠ ';')) hamp
      have hxs_amp : ∀ c ∈ (t.takeWhile (· ≠ ';')).takeWhile (· ≠ '&'), ¬ c = '&' := by
        intro c hc
        simpa using List.mem_takeWhile_imp hc
      have hxs_sem : ∀ c ∈ (t.takeWhile (· ≠ ';')).takeWhile (· ≠ '&'),
          ((· ≠ ';') : Char → Bool) c = true :=
        fun c hc => decide_eq_true (hseg_all c (mem_takeWhile_mem hc))
      have ht_split : t = (t.takeWhile (· ≠ ';')).takeWhile (· ≠ '&') ++
          '&' :: (ys ++ ';' :: u) := by
        conv_lhs => rw [hu, hxs]
        simp
      have hpre2 := congrArg preprocessHTMLEntities ht_split
      rw [pre_append_noamp _ _ hxs_amp] at hpre2
      have hexR : ∃ R, preprocessHTMLEntities t =
          (t.takeWhile (· ≠ ';')).takeWhile (· ≠ '&') ++ '&' :: R := by
        by_cases hhit : (((ys ++ ';' :: u)).takeWhile (· ≠ ';')).length <
            (ys ++ ';' :: u).length ∧
            (entityNum (((ys ++ ';' :: u)).takeWhile (· ≠ ';'))).isSome = true
        · cases hv : entityNum (((ys ++ ';' :: u)).takeWhile (· ≠ ';')) with
          | none => rw [hv] at hhit; exact absurd hhit.2 (by simp)
          | some v =>
            rw [pre_amp_hit _ v hhit.1 hv] at hpre2
            have hvs : valShape v = true := by
              obtain ⟨p, hp, -, hv2⟩ := entityNum_some_mem hv
              have := List.all_eq_true.mp entityTable_vals_shape p hp
              rwa [hv2] at this
            obtain ⟨z, hzv, -⟩ := valShape_elim hvs
            rw [hzv] at hpre2
            exact ⟨'#' :: (z ++ preprocessHTMLEntities
                ((ys ++ ';' :: u).drop (((ys ++ ';' :: u).takeWhile (· ≠ ';')).length + 1))),
              by rw [hpre2]; simp⟩
        · rw [pre_amp_miss _ hhit] at hpre2
          exact ⟨_, hpre2⟩
      obtain ⟨R, hR⟩ := hexR
      rw [hR, takeWhile_append_all _ hxs_sem, List.takeWhile_cons, if_pos (by decide)]
      rintro ⟨-, hsome2⟩
      rw [entityNum_amp (List.mem_append_right _ (List.mem_cons_self _ _))] at hsome2
      exact Bool.noConfusion hsome2
    · -- no '&' up to the first ';': that stretch is copied verbatim, and the
      -- second pass sees the same failed candidate again
      have hpre : preprocessHTMLEntities t =
          t.takeWhile (· ≠ ';') ++ ';' :: preprocessHTMLEntities u := by
        conv_lhs => rw [hu]
        rw [pre_append_noamp _ _ (fun c hc he => hamp (he ▸ hc)),
            pre_cons_ne ';' u (by decide)]
      rw [hpre, takeWhile_append_all _ hseg_dec, List.takeWhile_cons,
          if_neg (by simp), List.append_nil]
      rintro ⟨-, hsome⟩
      rw [hnone] at hsome
      exact Bool.noConfusion hsome
  · rw [pre_no_semi t hsem]
    exact h

theorem pre_idem_aux : ∀ (n : Nat) (s : Str), s.length ≤ n →
    preprocessHTMLEntities (preprocessHTMLEntities s) = preprocessHTMLEntities s := by
  intro n
  induction n with
  | zero =>
    intro s h
    have hs : s = [] := List.length_eq_zero.mp (Nat.le_zero.mp h)
    subst hs
    rfl
  | succ n ih =>
    intro s h
    cases s with
    | nil => rfl
    | cons c rest =>
      rw [List.length_cons] at h
      by_cases hc : c = '&'
      · subst hc
        by_cases hhit : (rest.takeWhile (· ≠ ';')).length < rest.length ∧
            (entityNum (rest.takeWhile (· ≠ ';'))).isSome = true
        · cases hv : entityNum (rest.takeWhile (· ≠ ';')) with
          | none => rw [hv] at hhit; exact absurd hhit.2 (by simp)
          | some v =>
            rw [pre_amp_hit rest v hhit.1 hv]
            have hvs : valShape v = true := by
              obtain ⟨p, hp, -, hv2⟩ := entityNum_some_mem hv
              have := List.all_eq_true.mp entityTable_vals_shape p hp
              rwa [hv2] at this
            obtain ⟨z, hzv, hz⟩ := valShape_elim hvs
            rw [hzv, pre_numref_append z _ hz]
            refine congrArg _ (ih _ ?_)
            rw [List.length_drop]
            omega
        · rw [pre_amp_miss rest hhit,
              pre_amp_miss _ (entityMiss_preserved rest hhit)]
          exact congrArg _ (ih rest (by omega))
      · rw [pre_cons_ne c rest hc, pre_cons_ne c _ hc]
        exact congrArg _ (ih rest (by omega))

theorem pre_idem (s : Str) :
    preprocessHTMLEntities (preprocessHTMLEntities s) = preprocessHTMLEntities s :=
  pre_idem_aux s.length s (Nat.le_refl _)

theorem pre_preserved (name : Str) (t : Str)
    (hcs : ∀ c ∈ name, ¬ c = '&' ∧ ¬ c = ';') (hnone : entityNum name = none) :
    preprocessHTMLEntities ('&' :: (name ++ ';' :: t)) =
      '&' :: (name ++ ';' :: preprocessHTMLEntities t) := by
  have hseg : (name ++ ';' :: t).takeWhile (· ≠ ';') = name := by
    rw [takeWhile_append_all _ (fun x hx => decide_eq_true (hcs x hx).2),
        List.takeWhile_cons, if_neg (by simp), List.append_nil]
  have hm : ¬ (((name ++ ';' :: t).takeWhile (· ≠ ';')).length < (name ++ ';' :: t).length ∧
      (entityNum ((name ++ ';' :: t).takeWhile (· ≠ ';'))).isSome = true) := by
    rintro ⟨-, hsome⟩
    rw [hseg, hnone] at hsome
    exact Bool.noConfusion hsome
  rw [pre_amp_miss _ hm, pre_append_noamp name _ (fun c hc => (hcs c hc).1),
      pre_cons_ne ';' t (by decide)]

/-- **C9.** `preprocessHTMLEntities` never rewrites the XML-predefined
entities (`amp`, `lt`, `gt`, `quot`, `apos`): an occurrence `&name;` with
`name` in the preserved set is copied verbatim while the rest of the input
is processed.  Moreover the transformation is idempotent on every input —
in particular on inputs whose named entities come only from the mapped
table or the preserved set — because each replacement is a numeric
character reference that no second pass can match again. -/
theorem preprocess_preserved_and_idempotent :
    (∀ name ∈ preservedEntityNames, ∀ t : Str,
        preprocessHTMLEntities ('&' :: (name ++ ';' :: t)) =
          '&' :: (name ++ ';' :: preprocessHTMLEntities t)) ∧
    (∀ s : Str, preprocessHTMLEntities (preprocessHTMLEntities s) =
        preprocessHTMLEntities s) := by
  constructor
  · intro name hmem t
    simp only [preservedEntityNames, List.mem_cons, List.not_mem_nil, or_false] at hmem
    rcases hmem with rfl | rfl | rfl | rfl | rfl
    · exact pre_preserved _ t (by decide) (by decide)
    · exact pre_preserved _ t (by decide) (by decide)
    · exact pre_preserved _ t (by decide) (by decide)
    · exact pre_preserved _ t (by decide) (by decide)
    · exact pre_preserved _ t (by decide) (by decide)
  · exact pre_idem

theorem preprocess_preserved_and_idempotent_witness :
    preprocessHTMLEntities ('&' :: ("amp".toList ++ ';' :: "x".toList)) =
        '&' :: ("amp".toList ++ ';' :: preprocessHTMLEntities "x".toList) ∧
      preprocessHTMLEntities (preprocessHTMLEntities "a &nbsp;&amp; b".toList) =
        preprocessHTMLEntities "a &nbsp;&amp; b".toList :=
  ⟨preprocess_preserved_and_idempotent.1 "amp".toList (by decide) "x".toList,
   preprocess_preserved_and_idempotent.2 "a &nbsp;&amp; b".toList⟩

theorem preprocess_vector :
    preprocessHTMLEntities "Caf&eacute; &amp; &NBSP;x &lt;tag&gt;".toList =
      "Caf&#233; &amp; &#160;x &lt;tag&gt;".toList := by decide

end Epub
